import Mathlib

/-!
# Verification of the QuantumGoFish knowledge engine and solver

This file gives a shallow embedding, in Lean 4, of the core of the
QuantumGoFish repository (`src/cards.rs` and `src/player.rs`) and proves
or refutes the stated properties of the natural-language specification.

Modelling conventions:

* The game has `n` players and `n` suits; suit identifiers are `Fin n`.
* Rust `i8`/`i64` counters are modelled as `ℕ` (or `ℤ` where a
  subtraction could be negative); all quantities arising in play are
  small and non-negative, so this is exact.
* A Rust `HashMap<i8, i8>` of known cards is modelled as a total
  function `Fin n → ℕ`, where "key absent" is count `0` (the code never
  stores a zero count: entries are deleted on decrement to zero).
* A Rust `HashSet<i8>` of voids is modelled as a `Finset (Fin n)`.
* Rust `HashMap` iteration order is unspecified; the embedding fixes the
  iteration order over suits to be increasing, a determinization of the
  source.
* A Rust `assert!` failure (a panic) is modelled as an explicit
  `panic`-outcome of the operation; a `return false` is a distinct
  `fail`/`contra` outcome that keeps the (possibly partially mutated)
  state, exactly as `&mut self` does in Rust.
-/

namespace QGF

/-- One player's hand: known card counts per suit, proven voids, and the
number of held cards whose suit is not yet deduced.
Mirrors `struct Hand` of `src/cards.rs`. -/
structure Hand (n : ℕ) where
  known : Fin n → ℕ
  voids : Finset (Fin n)
  unknown : ℕ

instance {n : ℕ} : DecidableEq (Hand n) := fun a b =>
  decidable_of_iff (a.known = b.known ∧ a.voids = b.voids ∧ a.unknown = b.unknown)
    (by cases a; cases b; simp)

/-- The table: one hand per player.  Mirrors `struct Cards` (a
`Vec<Hand>` of length `n`). -/
def Cards (n : ℕ) : Type := Fin n → Hand n

instance {n : ℕ} : DecidableEq (Cards n) := fun a b =>
  decidable_of_iff (∀ i, a i = b i) funext_iff.symm

/-- Pointwise update of a function out of `Fin n` (a non-dependent
version of `upd`, so that kernel evaluation of concrete
states reduces; `upd` is dependently typed and blocks on an
`Eq.rec`). -/
def upd {n : ℕ} {β : Type _} (f : Fin n → β) (a : Fin n) (b : β) : Fin n → β :=
  fun x => if x = a then b else f x

@[simp] theorem upd_same {n : ℕ} {β : Type _} (f : Fin n → β) (a : Fin n)
    (b : β) : upd f a b a = b := by simp [upd]

theorem upd_noteq {n : ℕ} {β : Type _} {x a : Fin n} (h : x ≠ a)
    (f : Fin n → β) (b : β) : upd f a b x = f x := by simp [upd, h]

/-- The freshly dealt table: every hand has four unknown cards, nothing
known, no voids (`Hand::new` / `Cards::new`). -/
def initCards (n : ℕ) : Cards n := fun _ => ⟨fun _ => 0, ∅, 4⟩

/-- Outcome of a fallible `Hand` operation: success with the new hand,
failure (Rust `return false`, no state carried because the operations
that fail do not mutate first), or an `assert!` panic. -/
inductive HOut (n : ℕ)
  | ok (h : Hand n)
  | fail
  | panic

instance {n : ℕ} : DecidableEq (HOut n) := fun a b =>
  match a, b with
  | .ok x, .ok y =>
      decidable_of_iff (x = y) ⟨fun h => h ▸ rfl, fun h => by cases h; rfl⟩
  | .ok _, .fail => isFalse (fun h => HOut.noConfusion h)
  | .ok _, .panic => isFalse (fun h => HOut.noConfusion h)
  | .fail, .ok _ => isFalse (fun h => HOut.noConfusion h)
  | .fail, .fail => isTrue rfl
  | .fail, .panic => isFalse (fun h => HOut.noConfusion h)
  | .panic, .ok _ => isFalse (fun h => HOut.noConfusion h)
  | .panic, .fail => isFalse (fun h => HOut.noConfusion h)
  | .panic, .panic => isTrue rfl

/-- Outcome of a fallible `Hand` operation that can fail after partial
mutation (carries the mutated hand on failure). -/
inductive HOut' (n : ℕ)
  | ok (h : Hand n)
  | fail (h : Hand n)
  | panic

instance {n : ℕ} : DecidableEq (HOut' n) := fun a b =>
  match a, b with
  | .ok x, .ok y =>
      decidable_of_iff (x = y) ⟨fun h => h ▸ rfl, fun h => by cases h; rfl⟩
  | .ok _, .fail _ => isFalse (fun h => HOut'.noConfusion h)
  | .ok _, .panic => isFalse (fun h => HOut'.noConfusion h)
  | .fail _, .ok _ => isFalse (fun h => HOut'.noConfusion h)
  | .fail x, .fail y =>
      decidable_of_iff (x = y) ⟨fun h => h ▸ rfl, fun h => by cases h; rfl⟩
  | .fail _, .panic => isFalse (fun h => HOut'.noConfusion h)
  | .panic, .ok _ => isFalse (fun h => HOut'.noConfusion h)
  | .panic, .fail _ => isFalse (fun h => HOut'.noConfusion h)
  | .panic, .panic => isTrue rfl

namespace Hand

variable {n : ℕ}

/-- `Hand::is_empty`. -/
def isEmpty (h : Hand n) : Prop := (∀ s, h.known s = 0) ∧ h.unknown = 0

/-- `Hand::_remove_unknown`: take one card from the unknowns; clears the
voids when the last unknown goes.  The `assert!(unknown > 0)` is
modelled as `none`. -/
def removeUnknown (h : Hand n) : Option (Hand n) :=
  if h.unknown = 0 then none
  else some { known := h.known,
              voids := if h.unknown - 1 = 0 then ∅ else h.voids,
              unknown := h.unknown - 1 }

/-- `Hand::ensure_have`: the holder has just asked for `s`, so must have
one.  Promotes an unknown when `s` is not yet known; fails when `s` is a
recorded void. -/
def ensureHave (h : Hand n) (s : Fin n) : HOut n :=
  if h.known s ≠ 0 then .ok h
  else if s ∈ h.voids then .fail
  else match removeUnknown h with
    | none => .panic
    | some h' => .ok { h' with known := upd h'.known s 1 }

/-- `Hand::ensure_have_not`: the holder denied having `s`.  Fails when
`s` is already known to be held. -/
def ensureHaveNot (h : Hand n) (s : Fin n) : HOut n :=
  if h.known s ≠ 0 then .fail
  else .ok { h with voids := insert s h.voids }

/-- `Hand::remove`: physically remove one card of suit `s`, preferring
a known card, else an unknown; fails on a recorded void. -/
def removeCard (h : Hand n) (s : Fin n) : HOut n :=
  if h.known s ≠ 0 then
    .ok { h with known := upd h.known s (h.known s - 1) }
  else if s ∈ h.voids then .fail
  else match removeUnknown h with
    | none => .panic
    | some h' => .ok h'

/-- `Hand::add`: put one card of suit `s` into the hand. -/
def addCard (h : Hand n) (s : Fin n) : Hand n :=
  { h with known := upd h.known s (h.known s + 1) }

/-- `Hand::has_four_of_a_kind`: some known count is exactly 4. -/
def hasFourOfAKind (h : Hand n) : Bool :=
  decide (∃ s, h.known s = 4)

/-- `Hand::is_determined`: no unknowns left. -/
def isDetermined (h : Hand n) : Bool := h.unknown == 0

/-- `Hand::kill_unknown`: four cards of `s` are known globally, so the
unknowns of this hand cannot be of suit `s`.  Returns the new hand and
whether the voids set grew. -/
def killUnknown (h : Hand n) (s : Fin n) : Hand n × Bool :=
  if 0 < h.unknown then
    if s ∈ h.voids then (h, false)
    else ({ h with voids := insert s h.voids }, true)
  else (h, false)

/-- `Hand::force_unknowns`: when all suits but one are voided, the
unknowns must all be of the remaining suit. -/
def forceUnknowns (h : Hand n) : Hand n × Bool :=
  if h.unknown = 0 then (h, false)
  else if h.voids.card = n - 1 then
    match (List.finRange n).find? (fun i => i ∉ h.voids) with
    | some i =>
        ({ known := upd h.known i (h.known i + h.unknown),
           voids := ∅, unknown := 0 }, true)
    | none => (h, false)
  else (h, false)

/-- `Hand::fill_some_unknowns`: move `k` unknowns into `known[s]`.
Returns `fail` when there are fewer than `k` unknowns; panics (Rust
`assert!`) when `4 < k`, or when `s` is a recorded void and `k`
unknowns are available. -/
def fillSome (h : Hand n) (s : Fin n) (k : ℕ) : HOut n :=
  if 4 < k then .panic
  else if h.unknown < k then .fail
  else if s ∈ h.voids then .panic
  else .ok { known := upd h.known s (h.known s + k),
             voids := h.voids,
             unknown := h.unknown - k }

/-- `Hand::fill_unknowns`: the sole hand with unknowns absorbs every
suit's deficit.  `keys` is the list of suits present in the running
totals (positive totals), in increasing order; ends with the
`assert!(unknown == 0)`. -/
def fillUnknowns (h : Hand n) (tot : Fin n → ℕ) : List (Fin n) → HOut' n
  | [] => if h.unknown ≠ 0 then .panic else .ok h
  | s :: rest =>
      if tot s < 4 then
        match fillSome h s (4 - tot s) with
        | .ok h' => fillUnknowns h' tot rest
        | .fail => .fail h
        | .panic => .panic
      else fillUnknowns h tot rest

end Hand

/-- Outcome of a fallible `Cards` operation called with `no_throw =
true`: success, failure (Rust `return false`) — both carrying the
current table, which may have been partially mutated — or a panic. -/
inductive TOut (n : ℕ)
  | ok (c : Cards n)
  | fail (c : Cards n)
  | panic

instance {n : ℕ} : DecidableEq (TOut n) := fun a b =>
  match a, b with
  | .ok x, .ok y =>
      decidable_of_iff (x = y) ⟨fun h => h ▸ rfl, fun h => by cases h; rfl⟩
  | .ok _, .fail _ => isFalse (fun h => TOut.noConfusion h)
  | .ok _, .panic => isFalse (fun h => TOut.noConfusion h)
  | .fail _, .ok _ => isFalse (fun h => TOut.noConfusion h)
  | .fail x, .fail y =>
      decidable_of_iff (x = y) ⟨fun h => h ▸ rfl, fun h => by cases h; rfl⟩
  | .fail _, .panic => isFalse (fun h => TOut.noConfusion h)
  | .panic, .ok _ => isFalse (fun h => TOut.noConfusion h)
  | .panic, .fail _ => isFalse (fun h => TOut.noConfusion h)
  | .panic, .panic => isTrue rfl

variable {n : ℕ}

/-- `Cards::transfer` (with `no_throw = true`): `this` asked `other` for
a card of suit `s` and `other` had one.  `ensure_have` on the asker (a
promotion that persists even when the later `remove` fails), `remove`
on the asked player, then `add` to the asker. -/
def transfer (c : Cards n) (s : Fin n) (other this : Fin n) : TOut n :=
  match Hand.ensureHave (c this) s with
  | .panic => .panic
  | .fail => .fail c
  | .ok h =>
    let c1 := upd c this h
    match Hand.removeCard (c1 other) s with
    | .panic => .panic
    | .fail => .fail c1
    | .ok g =>
      let c2 := upd c1 other g
      .ok (upd c2 this (Hand.addCard (c2 this) s))

/-- `Cards::no_transfer` (with `no_throw = true`): `this` asked `other`
for a card of suit `s` and `other` denied having one. -/
def noTransfer (c : Cards n) (s : Fin n) (other this : Fin n) : TOut n :=
  match Hand.ensureHave (c this) s with
  | .panic => .panic
  | .fail => .fail c
  | .ok h =>
    let c1 := upd c this h
    match Hand.ensureHaveNot (c1 other) s with
    | .panic => .panic
    | .fail => .fail c1
    | .ok g => .ok (upd c1 other g)

/-! ## The `shake_down` constraint-propagation engine -/

/-- The running totals of known cards per suit across all hands
(`Hand::running_totals` accumulated over the table).  A suit is "present
in the totals map" exactly when its total is positive, since the code
never stores zero counts. -/
def totals (c : Cards n) : Fin n → ℕ :=
  fun s => ∑ i, (c i).known s

/-- Outcome of one phase of the `shake_down` loop body: the updated
table together with the `any_changes` flag, a contradiction (Rust
`return false`, carrying the partially mutated table), or a panic. -/
inductive POut (n : ℕ)
  | ok (c : Cards n) (flag : Bool)
  | contra (c : Cards n)
  | panic

instance {n : ℕ} : DecidableEq (POut n) := fun a b =>
  match a, b with
  | .ok x f, .ok y g =>
      decidable_of_iff (x = y ∧ f = g)
        ⟨fun h => h.1 ▸ h.2 ▸ rfl, fun h => by cases h; exact ⟨rfl, rfl⟩⟩
  | .ok _ _, .contra _ => isFalse (fun h => POut.noConfusion h)
  | .ok _ _, .panic => isFalse (fun h => POut.noConfusion h)
  | .contra _, .ok _ _ => isFalse (fun h => POut.noConfusion h)
  | .contra x, .contra y =>
      decidable_of_iff (x = y) ⟨fun h => h ▸ rfl, fun h => by cases h; rfl⟩
  | .contra _, .panic => isFalse (fun h => POut.noConfusion h)
  | .panic, .ok _ _ => isFalse (fun h => POut.noConfusion h)
  | .panic, .contra _ => isFalse (fun h => POut.noConfusion h)
  | .panic, .panic => isTrue rfl

/-- Apply `kill_unknown s` to every hand (the `total == 4` rule);
the flag records whether any voids set grew. -/
def killAll (c : Cards n) (s : Fin n) : Cards n × Bool :=
  (fun i => (Hand.killUnknown (c i) s).1,
   decide (∃ i, (Hand.killUnknown (c i) s).2 = true))

/-- Fill all unknowns of each hand in `cands` with suit `s` (the
tight-fit rule, when the unknowns exactly cover the deficit). -/
def fillList (c : Cards n) (s : Fin n) : List (Fin n) → POut n
  | [] => .ok c true
  | i :: rest =>
      match Hand.fillSome (c i) s ((c i).unknown) with
      | .ok h => fillList (upd c i h) s rest
      | .fail => .contra c
      | .panic => .panic

/-- The candidate-hands part of the per-suit phase (rules 3–4): `cands`
is the list of hands with unknowns and no void of `s`.  A single
candidate absorbs the whole deficit; several candidates whose unknowns
exactly cover the deficit all fill up. -/
def suitCands (c : Cards n) (tot : Fin n → ℕ) (s : Fin n) :
    List (Fin n) → POut n
  | [i] =>
      match Hand.fillSome (c i) s (4 - tot s) with
      | .ok h => .ok (upd c i h) true
      | .fail => .contra c
      | .panic => .panic
  | cands =>
      if (cands.map (fun i => (c i).unknown)).sum < 4 - tot s then .contra c
      else if (cands.map (fun i => (c i).unknown)).sum = 4 - tot s then
        fillList c s cands
      else .ok c false

/-- The body of the per-suit phase of `shake_down` (rules 1–4 of the
spec): overflow check, saturation (`kill_unknown`), sole-candidate fill,
tight-fit fill.  `tot` is the totals snapshot. -/
def suitRule (c : Cards n) (tot : Fin n → ℕ) (s : Fin n) : POut n :=
  if 4 < tot s then .contra c
  else if tot s = 4 then
    .ok (killAll c s).1 (killAll c s).2
  else
    suitCands c tot s
      ((List.finRange n).filter (fun i => 0 < (c i).unknown ∧ s ∉ (c i).voids))

/-- The per-suit loop of `shake_down`: iterate the suits present in the
totals; the loop breaks out as soon as `any_changes` is set (the
`if any_changes break` at the top of the Rust loop). -/
def phase1 (c : Cards n) (tot : Fin n → ℕ) : List (Fin n) → POut n
  | [] => .ok c false
  | s :: rest =>
      match suitRule c tot s with
      | .ok c' true => .ok c' true
      | .ok c' false => phase1 c' tot rest
      | .contra c' => .contra c'
      | .panic => .panic

/-- Apply `force_unknowns` to every hand (rule 5). -/
def forceAll (c : Cards n) : Cards n × Bool :=
  (fun i => (Hand.forceUnknowns (c i)).1,
   decide (∃ i, (Hand.forceUnknowns (c i)).2 = true))

/-- Rule 7 (demand-pressure), inner loop over the suits for one hand
with more than one unknown.  `u0` is the snapshot of the hand's unknown
count, `possible` the total capacity over its non-voided deficit
suits. -/
def rule7Suits (h : Hand n) (tot : Fin n → ℕ) (possible u0 : ℕ) :
    List (Fin n) → HOut' n × Bool
  | [] => (.ok h, false)
  | s :: rest =>
      if tot s < 4 ∧ s ∉ h.voids then
        let remaining := possible - (4 - tot s)
        if remaining < u0 then
          match Hand.fillSome h s (u0 - remaining) with
          | .ok h' =>
              match rule7Suits h' tot possible u0 rest with
              | (r, _) => (r, true)
          | .fail => (.fail h, false)
          | .panic => (.panic, false)
        else rule7Suits h tot possible u0 rest
      else rule7Suits h tot possible u0 rest

/-- Rule 7 (demand-pressure), outer loop over the hands. -/
def rule7 (c : Cards n) (tot : Fin n → ℕ) (flag : Bool) :
    List (Fin n) → POut n
  | [] => .ok c flag
  | i :: rest =>
      if 1 < (c i).unknown then
        let possible := ∑ s with tot s < 4 ∧ s ∉ (c i).voids, (4 - tot s)
        if possible < (c i).unknown then .contra c
        else
          match rule7Suits (c i) tot possible ((c i).unknown) (List.finRange n) with
          | (.ok h, f) => rule7 (upd c i h) tot (flag || f) rest
          | (.fail h, _) => .contra (upd c i h)
          | (.panic, _) => .panic
      else rule7 c tot flag rest

/-- Rule 8 (sparse-suit allocation), inner loop over the hands for a
suit with total ≤ 2.  `slots` is the stale sum of unknowns over the
non-voided hands, computed before the loop.  This rule never sets
`any_changes` in the source. -/
def rule8Hands (c : Cards n) (tot : Fin n → ℕ) (s : Fin n) (slots : ℕ) :
    List (Fin n) → POut n
  | [] => .ok c false
  | i :: rest =>
      if s ∉ (c i).voids then
        let otherSlots := slots - (c i).unknown
        if otherSlots < tot s then
          match Hand.fillSome (c i) s (tot s - otherSlots) with
          | .ok h => rule8Hands (upd c i h) tot s slots rest
          | .fail => .contra c
          | .panic => .panic
        else rule8Hands c tot s slots rest
      else rule8Hands c tot s slots rest

/-- Rule 8 (sparse-suit allocation), outer loop over the suits. -/
def rule8 (c : Cards n) (tot : Fin n → ℕ) : List (Fin n) → POut n
  | [] => .ok c false
  | s :: rest =>
      if tot s ≤ 2 then
        let slots := ∑ i with s ∉ (c i).voids, (c i).unknown
        match rule8Hands c tot s slots (List.finRange n) with
        | .ok c' _ => rule8 c' tot rest
        | .contra c' => .contra c'
        | .panic => .panic
      else rule8 c tot rest

/-- Insert player `i` into the association list of groups under `key`,
preserving first-occurrence order (the `groups.entry(group)
.or_insert(vec![]).push(player)` of the source). -/
def addToGroups (gs : List (Finset (Fin n) × List (Fin n)))
    (key : Finset (Fin n)) (i : Fin n) : List (Finset (Fin n) × List (Fin n)) :=
  match gs with
  | [] => [(key, [i])]
  | (k, ps) :: rest =>
      if k = key then (k, ps ++ [i]) :: rest
      else (k, ps) :: addToGroups rest key i

/-- Rule 9 grouping: hands with unknowns and more than one void,
grouped by their set of non-voided suits. -/
def groupsOf (c : Cards n) : List (Finset (Fin n) × List (Fin n)) :=
  (List.finRange n).foldl
    (fun gs i =>
      if 0 < (c i).unknown ∧ 1 < (c i).voids.card then
        addToGroups gs (Finset.univ \ (c i).voids) i
      else gs)
    []

/-- Apply `kill_unknown` to one hand for every suit of a group. -/
def killGroup (h : Hand n) : List (Fin n) → Hand n × Bool
  | [] => (h, false)
  | s :: rest =>
      let p := Hand.killUnknown h s
      let q := killGroup p.1 rest
      (q.1, p.2 || q.2)

/-- Rule 9 exclusion step: every hand outside the group's players voids
every suit of the group. -/
def rule9Kill (c : Cards n) (g : Finset (Fin n)) (players : List (Fin n)) :
    Cards n × Bool :=
  (fun j => if j ∈ players then c j
            else (killGroup (c j) ((List.finRange n).filter (fun s => s ∈ g))).1,
   decide (∃ j, j ∉ players ∧
     (killGroup (c j) ((List.finRange n).filter (fun s => s ∈ g))).2 = true))

/-- Rule 9 (group exclusion), loop over the groups.  `missing` and
`holes` are compared over `ℤ` exactly as the `i8` arithmetic does. -/
def rule9Groups (c : Cards n) (tot : Fin n → ℕ) (flag : Bool) :
    List (Finset (Fin n) × List (Fin n)) → POut n
  | [] => .ok c flag
  | (g, ps) :: rest =>
      if 1 < ps.length then
        let missing : ℤ := 4 * g.card - ∑ s ∈ g, (tot s : ℤ)
        let holes : ℤ := ((ps.map (fun p => (c p).unknown)).sum : ℕ)
        if missing < holes then .contra c
        else if missing = holes then
          let p := rule9Kill c g ps
          rule9Groups p.1 tot (flag || p.2) rest
        else rule9Groups c tot flag rest
      else rule9Groups c tot flag rest

/-- Rule 9 (group exclusion). -/
def rule9 (c : Cards n) (tot : Fin n → ℕ) : POut n :=
  rule9Groups c tot false (groupsOf c)

/-- Outcome of one full pass of the `shake_down` `while` body. -/
inductive IterOut (n : ℕ)
  | changed (c : Cards n)
  | done (c : Cards n)
  | contra (c : Cards n)
  | panic

instance {n : ℕ} : DecidableEq (IterOut n) := fun a b =>
  match a, b with
  | .changed x, .changed y =>
      decidable_of_iff (x = y) ⟨fun h => h ▸ rfl, fun h => by cases h; rfl⟩
  | .changed _, .done _ => isFalse (fun h => IterOut.noConfusion h)
  | .changed _, .contra _ => isFalse (fun h => IterOut.noConfusion h)
  | .changed _, .panic => isFalse (fun h => IterOut.noConfusion h)
  | .done _, .changed _ => isFalse (fun h => IterOut.noConfusion h)
  | .done x, .done y =>
      decidable_of_iff (x = y) ⟨fun h => h ▸ rfl, fun h => by cases h; rfl⟩
  | .done _, .contra _ => isFalse (fun h => IterOut.noConfusion h)
  | .done _, .panic => isFalse (fun h => IterOut.noConfusion h)
  | .contra _, .changed _ => isFalse (fun h => IterOut.noConfusion h)
  | .contra _, .done _ => isFalse (fun h => IterOut.noConfusion h)
  | .contra x, .contra y =>
      decidable_of_iff (x = y) ⟨fun h => h ▸ rfl, fun h => by cases h; rfl⟩
  | .contra _, .panic => isFalse (fun h => IterOut.noConfusion h)
  | .panic, .changed _ => isFalse (fun h => IterOut.noConfusion h)
  | .panic, .done _ => isFalse (fun h => IterOut.noConfusion h)
  | .panic, .contra _ => isFalse (fun h => IterOut.noConfusion h)
  | .panic, .panic => isTrue rfl

/-- Rules 8 and 9, run when the demand-pressure rule made no change. -/
def afterRule7 (c3 : Cards n) (tot : Fin n → ℕ) : IterOut n :=
  match rule8 c3 tot (List.finRange n) with
  | .contra c' => .contra c'
  | .panic => .panic
  | .ok c4 _ =>
      match rule9 c4 tot with
      | .contra c' => .contra c'
      | .panic => .panic
      | .ok c5 f5 => if f5 then .changed c5 else .done c5

/-- Rules 7–9, run when the sole-holder rule did not apply. -/
def afterSole (c2 : Cards n) (tot : Fin n → ℕ) : IterOut n :=
  match rule7 c2 tot false (List.finRange n) with
  | .contra c' => .contra c'
  | .panic => .panic
  | .ok c3 f3 => if f3 then .changed c3 else afterRule7 c3 tot

/-- Rule 6 (global sole-holder): when exactly one hand still has
unknowns, it absorbs every deficit of the totals keys; otherwise fall
through to rules 7–9. -/
def rule6Check (c2 : Cards n) (tot : Fin n → ℕ) (keys : List (Fin n)) :
    List (Fin n) → IterOut n
  | [i] =>
      match Hand.fillUnknowns (c2 i) tot keys with
      | .ok h => .changed (upd c2 i h)
      | .fail h => .contra (upd c2 i h)
      | .panic => .panic
  | _ => afterSole c2 tot

/-- The tail of the loop body after the per-suit phase: the
`force_unknowns` sweep, then either `continue` (a change was seen) or
the sole-holder rule and rules 7–9. -/
def afterPhase1 (c1 : Cards n) (f1 : Bool) (tot : Fin n → ℕ)
    (keys : List (Fin n)) : IterOut n :=
  if f1 || (forceAll c1).2 then .changed (forceAll c1).1
  else
    rule6Check (forceAll c1).1 tot keys
      ((List.finRange n).filter (fun i => 0 < ((forceAll c1).1 i).unknown))

/-- One full pass of the `shake_down` loop body, in the exact order of
the source: totals, per-suit rules 1–4, `force_unknowns` on every hand,
`continue` on change; global sole-holder fill, `continue` on change;
demand-pressure, `continue` on change; sparse-suit allocation (which
never sets the flag); group exclusion. -/
def iteration (c : Cards n) : IterOut n :=
  match phase1 c (totals c)
      ((List.finRange n).filter (fun s => 0 < totals c s)) with
  | .panic => .panic
  | .contra c' => .contra c'
  | .ok c1 f1 =>
      afterPhase1 c1 f1 (totals c)
        ((List.finRange n).filter (fun s => 0 < totals c s))

/-- The verdict of `Cards::shake_down`: `consistent` is Rust's
`return true`, `contradiction` is `return false`; both carry the
mutated table. -/
inductive SDR (n : ℕ)
  | consistent (c : Cards n)
  | contradiction (c : Cards n)
  | panicked

instance {n : ℕ} : DecidableEq (SDR n) := fun a b =>
  match a, b with
  | .consistent x, .consistent y =>
      decidable_of_iff (x = y) ⟨fun h => h ▸ rfl, fun h => by cases h; rfl⟩
  | .consistent _, .contradiction _ => isFalse (fun h => SDR.noConfusion h)
  | .consistent _, .panicked => isFalse (fun h => SDR.noConfusion h)
  | .contradiction _, .consistent _ => isFalse (fun h => SDR.noConfusion h)
  | .contradiction x, .contradiction y =>
      decidable_of_iff (x = y) ⟨fun h => h ▸ rfl, fun h => by cases h; rfl⟩
  | .contradiction _, .panicked => isFalse (fun h => SDR.noConfusion h)
  | .panicked, .consistent _ => isFalse (fun h => SDR.noConfusion h)
  | .panicked, .contradiction _ => isFalse (fun h => SDR.noConfusion h)
  | .panicked, .panicked => isTrue rfl

/-- The `while any_changes` loop of `shake_down`, with explicit fuel;
`none` means the fuel ran out (shown impossible below for fuel
`mu c + 1`). -/
def shakeDownLoop : ℕ → Cards n → Option (SDR n)
  | 0, _ => none
  | f + 1, c =>
      match iteration c with
      | .changed c' => shakeDownLoop f c'
      | .done c' => some (.consistent c')
      | .contra c' => some (.contradiction c')
      | .panic => some .panicked

/-- Termination measure for one hand: unknowns weighted by `n + 1`,
plus the number of suits not yet voided. -/
def muH (h : Hand n) : ℕ := h.unknown * (n + 1) + (n - h.voids.card)

/-- Termination measure for the table. -/
def mu (c : Cards n) : ℕ := ∑ i, muH (c i)

/-- `Cards::shake_down`.  The fuel `mu c + 1` always suffices (proved
below), so the `.panicked` default of `getD` is never taken. -/
def shakeDown (c : Cards n) : SDR n :=
  (shakeDownLoop (mu c + 1) c).getD .panicked

/-! ## `test_winner` -/

/-- The player reached after `i` steps of rotation from `last`
(the `(i + last_player) % n` of the source). -/
def rot (last : Fin n) (i : ℕ) : Fin n :=
  ⟨(i + ↑last) % n, Nat.mod_lt _ last.pos⟩

/-- `Cards::test_winner` (with `last_player : Fin n`): run `shake_down`;
`-2` on contradiction; `last` when every hand is determined; otherwise
the first player in rotation order from `last` holding four of a kind,
else `-1`.  `none` models the panic path of `shake_down`. -/
def testWinner (c : Cards n) (last : Fin n) : Option ℤ :=
  match shakeDown c with
  | .panicked => none
  | .contradiction _ => some (-2)
  | .consistent c' =>
    if (List.finRange n).all (fun i => (c' i).isDetermined) then
      some ((last : ℕ) : ℤ)
    else
      match (List.range n).find? (fun i => (c' (rot last i)).hasFourOfAKind) with
      | some i => some (((rot last i : Fin n) : ℕ) : ℤ)
      | none => some (-1)

/-! ## Monotonicity of the `shake_down` operations

`HandLE h h'` says the step from `h` to `h'` only adds knowledge:
known counts grow, unknowns shrink, and voids grow — except that a hand
that becomes fully determined may have had its voids cleared
(`force_unknowns` does exactly that). -/

def HandLE (h h' : Hand n) : Prop :=
  (∀ s, h.known s ≤ h'.known s) ∧ h'.unknown ≤ h.unknown ∧
    (h.voids ⊆ h'.voids ∨ h'.unknown = 0)

theorem handLE_refl (h : Hand n) : HandLE h h :=
  ⟨fun _ => le_rfl, le_rfl, Or.inl (Finset.Subset.refl _)⟩

theorem handLE_trans {a b c : Hand n} (hab : HandLE a b) (hbc : HandLE b c) :
    HandLE a c := by
  obtain ⟨k1, u1, v1⟩ := hab
  obtain ⟨k2, u2, v2⟩ := hbc
  refine ⟨fun s => (k1 s).trans (k2 s), u2.trans u1, ?_⟩
  rcases v1 with v1 | v1
  · rcases v2 with v2 | v2
    · exact Or.inl (v1.trans v2)
    · exact Or.inr v2
  · exact Or.inr (Nat.le_zero.mp (v1 ▸ u2))

/-- A hand step with a change flag: the state never grows the measure,
and a raised flag shrinks it strictly. -/
def HStep (h : Hand n) (p : Hand n × Bool) : Prop :=
  HandLE h p.1 ∧ muH p.1 ≤ muH h ∧ (p.2 = true → muH p.1 < muH h)

theorem HStep.comp {h : Hand n} {p q : Hand n × Bool}
    (hp : HStep h p) (hq : HStep p.1 q) : HStep h (q.1, p.2 || q.2) := by
  obtain ⟨l1, m1, s1⟩ := hp
  obtain ⟨l2, m2, s2⟩ := hq
  refine ⟨handLE_trans l1 l2, m2.trans m1, ?_⟩
  intro hflag
  rcases Bool.or_eq_true_iff.mp hflag with f | f
  · exact lt_of_le_of_lt m2 (s1 f)
  · exact lt_of_lt_of_le (s2 f) m1

theorem voids_card_le (h : Hand n) : h.voids.card ≤ n := by
  simpa using Finset.card_le_univ h.voids

theorem killUnknown_step (h : Hand n) (s : Fin n) :
    HStep h (Hand.killUnknown h s) := by
  unfold Hand.killUnknown
  split
  · split
    · exact ⟨handLE_refl h, le_rfl, by simp⟩
    · rename_i hu hs
      have hcard : (insert s h.voids).card = h.voids.card + 1 :=
        Finset.card_insert_of_not_mem hs
      have hle : (insert s h.voids).card ≤ n := voids_card_le ⟨h.known, _, h.unknown⟩
      refine ⟨⟨fun _ => le_rfl, le_rfl, Or.inl (Finset.subset_insert s _)⟩, ?_, ?_⟩
      · unfold muH; simp only [hcard]; omega
      · intro _; unfold muH; simp only [hcard]
        have : h.voids.card + 1 ≤ n := hcard ▸ hle
        omega
  · exact ⟨handLE_refl h, le_rfl, by simp⟩

theorem forceUnknowns_step (h : Hand n) : HStep h (Hand.forceUnknowns h) := by
  unfold Hand.forceUnknowns
  split
  · exact ⟨handLE_refl h, le_rfl, by simp⟩
  split
  · split
    · rename_i hne hcard optv i hfind
      have hn : 0 < n := i.pos
      have hu' : 0 < h.unknown := Nat.pos_of_ne_zero hne
      have hm : n + 1 ≤ h.unknown * (n + 1) := Nat.le_mul_of_pos_left _ hu'
      refine ⟨⟨fun t => ?_, by simp, Or.inr rfl⟩, ?_, fun _ => ?_⟩
      · by_cases ht : t = i
        · subst ht; simp
        · simp [upd_noteq ht _ _]
      · show 0 * (n + 1) + (n - Finset.card ∅) ≤ h.unknown * (n + 1) + (n - h.voids.card)
        simp only [Finset.card_empty]
        omega
      · show 0 * (n + 1) + (n - Finset.card ∅) < h.unknown * (n + 1) + (n - h.voids.card)
        simp only [Finset.card_empty]
        omega
    · exact ⟨handLE_refl h, le_rfl, by simp⟩
  · exact ⟨handLE_refl h, le_rfl, by simp⟩

theorem killGroup_step (h : Hand n) (l : List (Fin n)) :
    HStep h (killGroup h l) := by
  induction l generalizing h with
  | nil => exact ⟨handLE_refl h, le_rfl, by simp [killGroup]⟩
  | cons s rest ih =>
      have := HStep.comp (killUnknown_step h s) (ih (Hand.killUnknown h s).1)
      simpa [killGroup] using this

/-- Full characterisation of a successful `fill_some_unknowns`. -/
theorem fillSome_ok_iff {h h' : Hand n} {s : Fin n} {k : ℕ} :
    Hand.fillSome h s k = .ok h' ↔
      k ≤ 4 ∧ k ≤ h.unknown ∧ s ∉ h.voids ∧
      h' = ⟨upd h.known s (h.known s + k), h.voids, h.unknown - k⟩ := by
  unfold Hand.fillSome
  split
  · rename_i h4
    constructor
    · intro e; cases e
    · rintro ⟨e4, -⟩; omega
  split
  · rename_i h4 hu
    constructor
    · intro e; cases e
    · rintro ⟨-, eu, -⟩; omega
  split
  · rename_i h4 hu hv
    constructor
    · intro e; cases e
    · rintro ⟨-, -, ev, -⟩; exact absurd hv ev
  · rename_i h4 hu hv
    constructor
    · intro e; cases e; exact ⟨by omega, by omega, hv, rfl⟩
    · rintro ⟨-, -, -, rfl⟩; rfl

theorem fillSome_ok_le {h h' : Hand n} {s : Fin n} {k : ℕ}
    (e : Hand.fillSome h s k = .ok h') :
    HandLE h h' ∧ muH h' ≤ muH h ∧ (1 ≤ k → muH h' < muH h) ∧
      h'.voids = h.voids ∧ h'.unknown = h.unknown - k := by
  obtain ⟨h4, hk, hs, rfl⟩ := fillSome_ok_iff.mp e
  have hmul : (h.unknown - k) * (n + 1) ≤ h.unknown * (n + 1) :=
    Nat.mul_le_mul_right _ (Nat.sub_le _ _)
  refine ⟨⟨fun t => ?_, Nat.sub_le _ _, Or.inl (Finset.Subset.refl _)⟩, ?_, ?_, rfl, rfl⟩
  · by_cases ht : t = s
    · subst ht; simp
    · simp [upd_noteq ht _ _]
  · show (h.unknown - k) * (n + 1) + (n - h.voids.card) ≤
      h.unknown * (n + 1) + (n - h.voids.card)
    omega
  · intro h1
    have hlt : (h.unknown - k) * (n + 1) < h.unknown * (n + 1) :=
      mul_lt_mul_of_pos_right (by omega) (Nat.succ_pos n)
    show (h.unknown - k) * (n + 1) + (n - h.voids.card) <
      h.unknown * (n + 1) + (n - h.voids.card)
    omega

/-! ### Table-level monotonicity -/

def CardsLE (c c' : Cards n) : Prop := ∀ i, HandLE (c i) (c' i)

theorem cardsLE_refl (c : Cards n) : CardsLE c c := fun i => handLE_refl (c i)

theorem cardsLE_trans {a b c : Cards n} (hab : CardsLE a b) (hbc : CardsLE b c) :
    CardsLE a c := fun i => handLE_trans (hab i) (hbc i)

theorem mu_pointwise_le {c c' : Cards n} (hle : ∀ i, muH (c' i) ≤ muH (c i)) :
    mu c' ≤ mu c :=
  Finset.sum_le_sum (fun i _ => hle i)

theorem mu_pointwise_lt {c c' : Cards n} (hle : ∀ i, muH (c' i) ≤ muH (c i))
    (i : Fin n) (hlt : muH (c' i) < muH (c i)) : mu c' < mu c :=
  Finset.sum_lt_sum (fun j _ => hle j) ⟨i, Finset.mem_univ i, hlt⟩

theorem muH_update_le {c : Cards n} {i : Fin n} {h : Hand n}
    (hle : muH h ≤ muH (c i)) (j : Fin n) :
    muH (upd c i h j) ≤ muH (c j) := by
  by_cases hj : j = i
  · subst hj; simpa using hle
  · simp [upd_noteq hj _ _]

theorem mu_update_le {c : Cards n} {i : Fin n} {h : Hand n}
    (hle : muH h ≤ muH (c i)) : mu (upd c i h) ≤ mu c :=
  mu_pointwise_le (muH_update_le hle)

theorem mu_update_lt {c : Cards n} {i : Fin n} {h : Hand n}
    (hle : muH h ≤ muH (c i)) (hlt : muH h < muH (c i)) :
    mu (upd c i h) < mu c :=
  mu_pointwise_lt (muH_update_le hle) i (by simpa using hlt)

theorem cardsLE_update {c : Cards n} {i : Fin n} {h : Hand n}
    (hle : HandLE (c i) h) : CardsLE c (upd c i h) := by
  intro j
  by_cases hj : j = i
  · subst hj; simpa using hle
  · simp only [upd_noteq hj _ _]; exact handLE_refl _

/-- A table step with a change flag. -/
def CStep (c : Cards n) (p : Cards n × Bool) : Prop :=
  CardsLE c p.1 ∧ mu p.1 ≤ mu c ∧ (p.2 = true → mu p.1 < mu c)

theorem killAll_step (c : Cards n) (s : Fin n) : CStep c (killAll c s) := by
  refine ⟨fun i => (killUnknown_step (c i) s).1, ?_, ?_⟩
  · exact mu_pointwise_le (fun i => (killUnknown_step (c i) s).2.1)
  · intro hflag
    obtain ⟨i, hi⟩ := of_decide_eq_true hflag
    exact mu_pointwise_lt (fun j => (killUnknown_step (c j) s).2.1) i
      ((killUnknown_step (c i) s).2.2 hi)

theorem forceAll_step (c : Cards n) : CStep c (forceAll c) := by
  refine ⟨fun i => (forceUnknowns_step (c i)).1, ?_, ?_⟩
  · exact mu_pointwise_le (fun i => (forceUnknowns_step (c i)).2.1)
  · intro hflag
    obtain ⟨i, hi⟩ := of_decide_eq_true hflag
    exact mu_pointwise_lt (fun j => (forceUnknowns_step (c j)).2.1) i
      ((forceUnknowns_step (c i)).2.2 hi)

theorem rule9Kill_step (c : Cards n) (g : Finset (Fin n))
    (players : List (Fin n)) : CStep c (rule9Kill c g players) := by
  have hstep : ∀ j, HStep (c j)
      ((rule9Kill c g players).1 j,
       if j ∈ players then false
       else (killGroup (c j) ((List.finRange n).filter (fun s => s ∈ g))).2) := by
    intro j
    by_cases hj : j ∈ players
    · have h1 : (rule9Kill c g players).1 j = c j := by
        unfold rule9Kill; simp [hj]
      rw [h1, if_pos hj]
      exact ⟨handLE_refl _, le_rfl, by simp⟩
    · have h1 : (rule9Kill c g players).1 j =
          (killGroup (c j) ((List.finRange n).filter (fun s => s ∈ g))).1 := by
        unfold rule9Kill; simp [hj]
      rw [h1, if_neg hj, Prod.mk.eta]
      exact killGroup_step _ _
  refine ⟨fun j => (hstep j).1, mu_pointwise_le (fun j => (hstep j).2.1), ?_⟩
  intro hflag
  obtain ⟨j, hnp, hj⟩ := of_decide_eq_true hflag
  refine mu_pointwise_lt (fun i => (hstep i).2.1) j ((hstep j).2.2 ?_)
  simp [hnp, hj]

/-! ### Per-phase bounds for the loop body -/

/-- Bound for a phase outcome: the state only gains knowledge-measure,
and a raised change flag shrinks the measure strictly. -/
def PLE (c : Cards n) : POut n → Prop
  | .ok c' flag => CardsLE c c' ∧ mu c' ≤ mu c ∧ (flag = true → mu c' < mu c)
  | .contra c' => CardsLE c c' ∧ mu c' ≤ mu c
  | .panic => True

theorem fillList_le (s : Fin n) : ∀ (l : List (Fin n)) (c : Cards n),
    match fillList c s l with
    | .ok c' _ => CardsLE c c' ∧ mu c' ≤ mu c
    | .contra c' => CardsLE c c' ∧ mu c' ≤ mu c
    | .panic => True := by
  intro l
  induction l with
  | nil =>
      intro c
      exact ⟨cardsLE_refl c, le_rfl⟩
  | cons i rest ih =>
      intro c
      cases hfs : Hand.fillSome (c i) s ((c i).unknown) with
      | ok h =>
          have hstep := fillSome_ok_le hfs
          have hrec := ih (upd c i h)
          simp only [fillList, hfs]
          cases hr : fillList (upd c i h) s rest with
          | ok c' f =>
              rw [hr] at hrec
              exact ⟨cardsLE_trans (cardsLE_update hstep.1) hrec.1,
                le_trans hrec.2 (mu_update_le hstep.2.1)⟩
          | contra c' =>
              rw [hr] at hrec
              exact ⟨cardsLE_trans (cardsLE_update hstep.1) hrec.1,
                le_trans hrec.2 (mu_update_le hstep.2.1)⟩
          | panic => trivial
      | fail =>
          simp only [fillList, hfs]
          exact ⟨cardsLE_refl c, le_rfl⟩
      | panic => simp only [fillList, hfs]

theorem fillList_strict {c c' : Cards n} {s i : Fin n} {rest : List (Fin n)}
    {f : Bool} (hpos : 0 < (c i).unknown)
    (e : fillList c s (i :: rest) = .ok c' f) : mu c' < mu c := by
  cases hfs : Hand.fillSome (c i) s ((c i).unknown) with
  | ok h =>
      simp only [fillList, hfs] at e
      have hstep := fillSome_ok_le hfs
      have hrec := fillList_le s rest (upd c i h)
      rw [e] at hrec
      exact lt_of_le_of_lt hrec.2 (mu_update_lt hstep.2.1 (hstep.2.2.1 hpos))
  | fail => simp only [fillList, hfs] at e; cases e
  | panic => simp only [fillList, hfs] at e; cases e

theorem suitCands_le (c : Cards n) (tot : Fin n → ℕ) (s : Fin n)
    (l : List (Fin n)) (hmem : ∀ i ∈ l, 0 < (c i).unknown)
    (ht : tot s < 4) : PLE c (suitCands c tot s l) := by
  match l with
  | [i] =>
      simp only [suitCands]
      cases hfs : Hand.fillSome (c i) s (4 - tot s) with
      | ok h =>
          have hstep := fillSome_ok_le hfs
          have hstrict := hstep.2.2.1 (by omega)
          exact ⟨cardsLE_update hstep.1, mu_update_le hstep.2.1,
            fun _ => mu_update_lt hstep.2.1 hstrict⟩
      | fail => exact ⟨cardsLE_refl c, le_rfl⟩
      | panic => trivial
  | [] =>
      simp only [suitCands, List.map_nil, List.sum_nil]
      rw [if_pos (by omega)]
      exact ⟨cardsLE_refl c, le_rfl⟩
  | i :: j :: rest =>
      simp only [suitCands]
      split
      · exact ⟨cardsLE_refl c, le_rfl⟩
      split
      · have hpos : 0 < (c i).unknown := hmem i (by simp)
        have hrec := fillList_le s (i :: j :: rest) c
        cases hr : fillList c s (i :: j :: rest) with
        | ok c' f =>
            rw [hr] at hrec
            exact ⟨hrec.1, hrec.2, fun _ => fillList_strict hpos hr⟩
        | contra c' => rw [hr] at hrec; exact hrec
        | panic => trivial
      · exact ⟨cardsLE_refl c, le_rfl, by simp⟩

theorem suitRule_le (c : Cards n) (tot : Fin n → ℕ) (s : Fin n) :
    PLE c (suitRule c tot s) := by
  unfold suitRule
  split
  · exact ⟨cardsLE_refl c, le_rfl⟩
  split
  · have := killAll_step c s
    exact ⟨this.1, this.2.1, this.2.2⟩
  · refine suitCands_le c tot s _ (fun i hi => ?_) (by omega)
    exact ((List.mem_filter.mp hi).2 |> of_decide_eq_true).1

theorem phase1_le (tot : Fin n → ℕ) : ∀ (l : List (Fin n)) (c : Cards n),
    PLE c (phase1 c tot l) := by
  intro l
  induction l with
  | nil =>
      intro c
      simp only [phase1]
      exact ⟨cardsLE_refl c, le_rfl, by simp⟩
  | cons s rest ih =>
      intro c
      have hs := suitRule_le c tot s
      cases hsr : suitRule c tot s with
      | ok c' flag =>
          rw [hsr] at hs
          cases flag with
          | true =>
              simp only [phase1, hsr]
              exact hs
          | false =>
              simp only [phase1, hsr]
              have hrec := ih c'
              cases hr : phase1 c' tot rest with
              | ok c'' f =>
                  rw [hr] at hrec
                  exact ⟨cardsLE_trans hs.1 hrec.1, le_trans hrec.2.1 hs.2.1,
                    fun hf => lt_of_lt_of_le (hrec.2.2 hf) hs.2.1⟩
              | contra c'' =>
                  rw [hr] at hrec
                  exact ⟨cardsLE_trans hs.1 hrec.1, le_trans hrec.2 hs.2.1⟩
              | panic => trivial
      | contra c' =>
          rw [hsr] at hs
          simp only [phase1, hsr]
          exact hs
      | panic => simp only [phase1, hsr]; trivial

theorem fillUnknowns_le (tot : Fin n → ℕ) : ∀ (l : List (Fin n)) (h : Hand n),
    match Hand.fillUnknowns h tot l with
    | .ok h' => HandLE h h' ∧ muH h' ≤ muH h ∧ h'.unknown = 0 ∧ h'.voids = h.voids
    | .fail h' => HandLE h h' ∧ muH h' ≤ muH h
    | .panic => True := by
  intro l
  induction l with
  | nil =>
      intro h
      by_cases hz : h.unknown = 0
      · simp only [Hand.fillUnknowns, hz]
        exact ⟨handLE_refl h, le_rfl, hz, rfl⟩
      · simp only [Hand.fillUnknowns, if_pos hz]
  | cons s rest ih =>
      intro h
      by_cases hts : tot s < 4
      · simp only [Hand.fillUnknowns, if_pos hts]
        cases hfs : Hand.fillSome h s (4 - tot s) with
        | ok h1 =>
            have hstep := fillSome_ok_le hfs
            have hrec := ih h1
            simp only [hfs]
            cases hr : Hand.fillUnknowns h1 tot rest with
            | ok h' =>
                rw [hr] at hrec
                exact ⟨handLE_trans hstep.1 hrec.1, le_trans hrec.2.1 hstep.2.1,
                  hrec.2.2.1, hrec.2.2.2.trans hstep.2.2.2.1⟩
            | fail h' =>
                rw [hr] at hrec
                exact ⟨handLE_trans hstep.1 hrec.1, le_trans hrec.2 hstep.2.1⟩
            | panic => trivial
        | fail => simp only [hfs]; exact ⟨handLE_refl h, le_rfl⟩
        | panic => simp only [hfs]
      · simp only [Hand.fillUnknowns, if_neg hts]
        exact ih h

theorem rule7Suits_le (tot : Fin n → ℕ) (possible u0 : ℕ) :
    ∀ (l : List (Fin n)) (h : Hand n),
    match rule7Suits h tot possible u0 l with
    | (.ok h', f) => HandLE h h' ∧ muH h' ≤ muH h ∧ (f = true → muH h' < muH h)
    | (.fail h', _) => HandLE h h' ∧ muH h' ≤ muH h
    | (.panic, _) => True := by
  intro l
  induction l with
  | nil =>
      intro h
      exact ⟨handLE_refl h, le_rfl, by simp⟩
  | cons s rest ih =>
      intro h
      by_cases hc : tot s < 4 ∧ s ∉ h.voids
      · simp only [rule7Suits, if_pos hc]
        by_cases hrem : possible - (4 - tot s) < u0
        · rw [if_pos hrem]
          cases hfs : Hand.fillSome h s (u0 - (possible - (4 - tot s))) with
          | ok h1 =>
              have hstep := fillSome_ok_le hfs
              have hstrict := hstep.2.2.1 (by omega)
              dsimp only
              cases hr : rule7Suits h1 tot possible u0 rest with
              | mk r f2 =>
                  have hrec := ih h1
                  simp only [hr] at hrec
                  cases r with
                  | ok h' =>
                      dsimp only
                      exact ⟨handLE_trans hstep.1 hrec.1,
                        le_trans hrec.2.1 hstep.2.1,
                        fun _ => lt_of_le_of_lt hrec.2.1 hstrict⟩
                  | fail h' =>
                      dsimp only
                      exact ⟨handLE_trans hstep.1 hrec.1, le_trans hrec.2 hstep.2.1⟩
                  | panic => dsimp only
          | fail =>
              dsimp only
              exact ⟨handLE_refl h, le_rfl⟩
          | panic => dsimp only
        · rw [if_neg hrem]
          exact ih h
      · simp only [rule7Suits, if_neg hc]
        exact ih h

theorem rule7_le (tot : Fin n → ℕ) : ∀ (l : List (Fin n)) (c : Cards n)
    (flag : Bool),
    match rule7 c tot flag l with
    | .ok c' f' => CardsLE c c' ∧ mu c' ≤ mu c ∧
        (f' = true → flag = true ∨ mu c' < mu c)
    | .contra c' => CardsLE c c'
    | .panic => True := by
  intro l
  induction l with
  | nil =>
      intro c flag
      exact ⟨cardsLE_refl c, le_rfl, fun hf => Or.inl hf⟩
  | cons i rest ih =>
      intro c flag
      by_cases hu : 1 < (c i).unknown
      · simp only [rule7, if_pos hu]
        by_cases hposs :
            (∑ s with tot s < 4 ∧ s ∉ (c i).voids, (4 - tot s)) < (c i).unknown
        · rw [if_pos hposs]
          exact cardsLE_refl c
        · rw [if_neg hposs]
          cases hrs : rule7Suits (c i) tot
              (∑ s with tot s < 4 ∧ s ∉ (c i).voids, (4 - tot s))
              ((c i).unknown) (List.finRange n) with
          | mk r f =>
              cases r with
              | ok h =>
                  have hsuits := rule7Suits_le tot
                    (∑ s with tot s < 4 ∧ s ∉ (c i).voids, (4 - tot s))
                    ((c i).unknown) (List.finRange n) (c i)
                  simp only [hrs] at hsuits
                  dsimp only
                  have hrec := ih (upd c i h) (flag || f)
                  cases hr : rule7 (upd c i h) tot (flag || f) rest with
                  | ok c' f' =>
                      simp only [hr] at hrec
                      refine ⟨cardsLE_trans (cardsLE_update hsuits.1) hrec.1,
                        le_trans hrec.2.1 (mu_update_le hsuits.2.1), ?_⟩
                      intro hf'
                      rcases hrec.2.2 hf' with hor | hlt
                      · rcases Bool.or_eq_true_iff.mp hor with hfl | hfl
                        · exact Or.inl hfl
                        · exact Or.inr (lt_of_le_of_lt hrec.2.1
                            (mu_update_lt hsuits.2.1 (hsuits.2.2 hfl)))
                      · exact Or.inr (lt_of_lt_of_le hlt (mu_update_le hsuits.2.1))
                  | contra c' =>
                      simp only [hr] at hrec
                      exact cardsLE_trans (cardsLE_update hsuits.1) hrec
                  | panic => exact trivial
              | fail h =>
                  have hsuits := rule7Suits_le tot
                    (∑ s with tot s < 4 ∧ s ∉ (c i).voids, (4 - tot s))
                    ((c i).unknown) (List.finRange n) (c i)
                  simp only [hrs] at hsuits
                  dsimp only
                  exact cardsLE_update hsuits.1
              | panic => dsimp only
      · simp only [rule7, if_neg hu]
        exact ih c flag

theorem rule8Hands_le (tot : Fin n → ℕ) (s : Fin n) (slots : ℕ) :
    ∀ (l : List (Fin n)) (c : Cards n),
    match rule8Hands c tot s slots l with
    | .ok c' _ => CardsLE c c' ∧ mu c' ≤ mu c
    | .contra c' => CardsLE c c' ∧ mu c' ≤ mu c
    | .panic => True := by
  intro l
  induction l with
  | nil =>
      intro c
      exact ⟨cardsLE_refl c, le_rfl⟩
  | cons i rest ih =>
      intro c
      by_cases hv : s ∉ (c i).voids
      · simp only [rule8Hands, if_pos hv]
        by_cases hlt : slots - (c i).unknown < tot s
        · rw [if_pos hlt]
          cases hfs : Hand.fillSome (c i) s (tot s - (slots - (c i).unknown)) with
          | ok h =>
              have hstep := fillSome_ok_le hfs
              dsimp only
              have hrec := ih (upd c i h)
              cases hr : rule8Hands (upd c i h) tot s slots rest with
              | ok c' f =>
                  simp only [hr] at hrec
                  exact ⟨cardsLE_trans (cardsLE_update hstep.1) hrec.1,
                    le_trans hrec.2 (mu_update_le hstep.2.1)⟩
              | contra c' =>
                  simp only [hr] at hrec
                  exact ⟨cardsLE_trans (cardsLE_update hstep.1) hrec.1,
                    le_trans hrec.2 (mu_update_le hstep.2.1)⟩
              | panic => exact trivial
          | fail =>
              dsimp only
              exact ⟨cardsLE_refl c, le_rfl⟩
          | panic => dsimp only
        · rw [if_neg hlt]
          exact ih c
      · simp only [rule8Hands, if_neg hv]
        exact ih c

theorem rule8_le (tot : Fin n → ℕ) : ∀ (l : List (Fin n)) (c : Cards n),
    match rule8 c tot l with
    | .ok c' _ => CardsLE c c' ∧ mu c' ≤ mu c
    | .contra c' => CardsLE c c' ∧ mu c' ≤ mu c
    | .panic => True := by
  intro l
  induction l with
  | nil =>
      intro c
      exact ⟨cardsLE_refl c, le_rfl⟩
  | cons s rest ih =>
      intro c
      by_cases ht : tot s ≤ 2
      · simp only [rule8, if_pos ht]
        cases hr : rule8Hands c tot s (∑ i with s ∉ (c i).voids, (c i).unknown)
            (List.finRange n) with
        | ok c1 f =>
            have hhands := rule8Hands_le tot s
              (∑ i with s ∉ (c i).voids, (c i).unknown) (List.finRange n) c
            simp only [hr] at hhands
            dsimp only
            have hrec := ih c1
            cases hr2 : rule8 c1 tot rest with
            | ok c' f' =>
                simp only [hr2] at hrec
                exact ⟨cardsLE_trans hhands.1 hrec.1, le_trans hrec.2 hhands.2⟩
            | contra c' =>
                simp only [hr2] at hrec
                exact ⟨cardsLE_trans hhands.1 hrec.1, le_trans hrec.2 hhands.2⟩
            | panic => exact trivial
        | contra c1 =>
            have hhands := rule8Hands_le tot s
              (∑ i with s ∉ (c i).voids, (c i).unknown) (List.finRange n) c
            simp only [hr] at hhands
            dsimp only
            exact hhands
        | panic => dsimp only
      · simp only [rule8, if_neg ht]
        exact ih c

theorem rule9Groups_le (tot : Fin n → ℕ) :
    ∀ (gl : List (Finset (Fin n) × List (Fin n))) (c : Cards n) (flag : Bool),
    match rule9Groups c tot flag gl with
    | .ok c' f' => CardsLE c c' ∧ mu c' ≤ mu c ∧
        (f' = true → flag = true ∨ mu c' < mu c)
    | .contra c' => CardsLE c c'
    | .panic => True := by
  intro gl
  induction gl with
  | nil =>
      intro c flag
      exact ⟨cardsLE_refl c, le_rfl, fun hf => Or.inl hf⟩
  | cons gp rest ih =>
      intro c flag
      obtain ⟨g, ps⟩ := gp
      by_cases hlen : 1 < ps.length
      · simp only [rule9Groups, if_pos hlen]
        by_cases hm1 : (4 * (g.card : ℤ) - ∑ s ∈ g, (tot s : ℤ)) <
            ((ps.map (fun p => (c p).unknown)).sum : ℕ)
        · rw [if_pos hm1]
          exact cardsLE_refl c
        · rw [if_neg hm1]
          by_cases hm2 : (4 * (g.card : ℤ) - ∑ s ∈ g, (tot s : ℤ)) =
              ((ps.map (fun p => (c p).unknown)).sum : ℕ)
          · rw [if_pos hm2]
            have hkill := rule9Kill_step c g ps
            have hrec := ih (rule9Kill c g ps).1 (flag || (rule9Kill c g ps).2)
            cases hr : rule9Groups (rule9Kill c g ps).1 tot
                (flag || (rule9Kill c g ps).2) rest with
            | ok c' f' =>
                simp only [hr] at hrec
                refine ⟨cardsLE_trans hkill.1 hrec.1, le_trans hrec.2.1 hkill.2.1, ?_⟩
                intro hf'
                rcases hrec.2.2 hf' with hor | hlt
                · rcases Bool.or_eq_true_iff.mp hor with hfl | hfl
                  · exact Or.inl hfl
                  · exact Or.inr (lt_of_le_of_lt hrec.2.1 (hkill.2.2 hfl))
                · exact Or.inr (lt_of_lt_of_le hlt hkill.2.1)
            | contra c' =>
                simp only [hr] at hrec
                exact cardsLE_trans hkill.1 hrec
            | panic => exact trivial
          · rw [if_neg hm2]
            exact ih c flag
      · simp only [rule9Groups, if_neg hlen]
        exact ih c flag

/-! ### Bound for one full pass of the loop body -/

/-- Bound for an iteration outcome: a `changed` verdict shrinks the
measure strictly (the loop's termination argument). -/
def ILE (c : Cards n) : IterOut n → Prop
  | .changed c' => CardsLE c c' ∧ mu c' < mu c
  | .done c' => CardsLE c c' ∧ mu c' ≤ mu c
  | .contra c' => CardsLE c c'
  | .panic => True

theorem afterRule7_le (c3 : Cards n) (tot : Fin n → ℕ) :
    ILE c3 (afterRule7 c3 tot) := by
  unfold afterRule7
  cases hr8 : rule8 c3 tot (List.finRange n) with
  | ok c4 f4 =>
      have h8 := rule8_le tot (List.finRange n) c3
      simp only [hr8] at h8
      dsimp only
      cases hr9 : rule9 c4 tot with
      | ok c5 f5 =>
          have h9 := rule9Groups_le tot (groupsOf c4) c4 false
          rw [show rule9Groups c4 tot false (groupsOf c4) = rule9 c4 tot from rfl] at h9
          simp only [hr9] at h9
          cases f5 with
          | true =>
              dsimp only
              refine ⟨cardsLE_trans h8.1 h9.1, ?_⟩
              rcases h9.2.2 rfl with hfl | hlt
              · cases hfl
              · exact lt_of_lt_of_le hlt h8.2
          | false =>
              dsimp only
              exact ⟨cardsLE_trans h8.1 h9.1, le_trans h9.2.1 h8.2⟩
      | contra c5 =>
          have h9 := rule9Groups_le tot (groupsOf c4) c4 false
          rw [show rule9Groups c4 tot false (groupsOf c4) = rule9 c4 tot from rfl] at h9
          simp only [hr9] at h9
          exact cardsLE_trans h8.1 h9
      | panic => exact trivial
  | contra c4 =>
      have h8 := rule8_le tot (List.finRange n) c3
      simp only [hr8] at h8
      exact h8.1
  | panic => exact trivial

theorem afterSole_le (c2 : Cards n) (tot : Fin n → ℕ) :
    ILE c2 (afterSole c2 tot) := by
  unfold afterSole
  cases hr7 : rule7 c2 tot false (List.finRange n) with
  | ok c3 f3 =>
      have h7 := rule7_le tot (List.finRange n) c2 false
      simp only [hr7] at h7
      dsimp only
      cases f3 with
      | true =>
          refine ⟨h7.1, ?_⟩
          rcases h7.2.2 rfl with hfl | hlt
          · cases hfl
          · exact hlt
      | false =>
          have hafter := afterRule7_le c3 tot
          cases ha : afterRule7 c3 tot with
          | changed c' =>
              rw [ha] at hafter
              exact ⟨cardsLE_trans h7.1 hafter.1, lt_of_lt_of_le hafter.2 h7.2.1⟩
          | done c' =>
              rw [ha] at hafter
              exact ⟨cardsLE_trans h7.1 hafter.1, le_trans hafter.2 h7.2.1⟩
          | contra c' =>
              rw [ha] at hafter
              exact cardsLE_trans h7.1 hafter
          | panic => exact trivial
  | contra c3 =>
      have h7 := rule7_le tot (List.finRange n) c2 false
      simp only [hr7] at h7
      exact h7
  | panic => exact trivial

theorem rule6Check_le (c2 : Cards n) (tot : Fin n → ℕ) (keys : List (Fin n)) :
    ∀ (l : List (Fin n)), (∀ i ∈ l, 0 < (c2 i).unknown) →
    ILE c2 (rule6Check c2 tot keys l) := by
  intro l hmem
  match l with
  | [i] =>
      simp only [rule6Check]
      cases hr : Hand.fillUnknowns (c2 i) tot keys with
      | ok h =>
          have hfu := fillUnknowns_le tot keys (c2 i)
          simp only [hr] at hfu
          have hu : 0 < (c2 i).unknown := hmem i (by simp)
          have hmuh : muH h < muH (c2 i) := by
            have hpos : 0 < (c2 i).unknown * (n + 1) :=
              Nat.mul_pos hu (Nat.succ_pos n)
            unfold muH
            rw [hfu.2.2.1, hfu.2.2.2]
            omega
          exact ⟨cardsLE_update hfu.1, mu_update_lt (le_of_lt hmuh) hmuh⟩
      | fail h =>
          have hfu := fillUnknowns_le tot keys (c2 i)
          simp only [hr] at hfu
          exact cardsLE_update hfu.1
      | panic => exact trivial
  | [] => exact afterSole_le c2 tot
  | i :: j :: rest => exact afterSole_le c2 tot

theorem afterPhase1_le (c1 : Cards n) (f1 : Bool) (tot : Fin n → ℕ)
    (keys : List (Fin n)) :
    match afterPhase1 c1 f1 tot keys with
    | .changed c' => CardsLE c1 c' ∧ mu c' ≤ mu c1 ∧ (f1 = true ∨ mu c' < mu c1)
    | .done c' => CardsLE c1 c' ∧ mu c' ≤ mu c1
    | .contra c' => CardsLE c1 c'
    | .panic => True := by
  unfold afterPhase1
  have hforce := forceAll_step c1
  by_cases hf : (f1 || (forceAll c1).2) = true
  · rw [if_pos hf]
    refine ⟨hforce.1, hforce.2.1, ?_⟩
    rcases Bool.or_eq_true_iff.mp hf with hfl | hfl
    · exact Or.inl hfl
    · exact Or.inr (hforce.2.2 hfl)
  · rw [if_neg hf]
    have hmem : ∀ i ∈ (List.finRange n).filter
        (fun i => 0 < ((forceAll c1).1 i).unknown),
        0 < ((forceAll c1).1 i).unknown :=
      fun i hi => of_decide_eq_true (List.mem_filter.mp hi).2
    have h6 := rule6Check_le (forceAll c1).1 tot keys _ hmem
    cases h6c : rule6Check (forceAll c1).1 tot keys
        ((List.finRange n).filter (fun i => 0 < ((forceAll c1).1 i).unknown)) with
    | changed c' =>
        rw [h6c] at h6
        exact ⟨cardsLE_trans hforce.1 h6.1, le_trans (le_of_lt h6.2) hforce.2.1,
          Or.inr (lt_of_lt_of_le h6.2 hforce.2.1)⟩
    | done c' =>
        rw [h6c] at h6
        exact ⟨cardsLE_trans hforce.1 h6.1, le_trans h6.2 hforce.2.1⟩
    | contra c' =>
        rw [h6c] at h6
        exact cardsLE_trans hforce.1 h6
    | panic => exact trivial

theorem iteration_le (c : Cards n) : ILE c (iteration c) := by
  unfold iteration
  cases hp : phase1 c (totals c)
      ((List.finRange n).filter (fun s => 0 < totals c s)) with
  | ok c1 f1 =>
      have hp1 := phase1_le (totals c)
        ((List.finRange n).filter (fun s => 0 < totals c s)) c
      simp only [hp] at hp1
      dsimp only
      have hap := afterPhase1_le c1 f1 (totals c)
        ((List.finRange n).filter (fun s => 0 < totals c s))
      cases ha : afterPhase1 c1 f1 (totals c)
          ((List.finRange n).filter (fun s => 0 < totals c s)) with
      | changed c' =>
          rw [ha] at hap
          refine ⟨cardsLE_trans hp1.1 hap.1, ?_⟩
          rcases hap.2.2 with hfl | hlt
          · exact lt_of_le_of_lt hap.2.1 (hp1.2.2 hfl)
          · exact lt_of_lt_of_le hlt hp1.2.1
      | done c' =>
          rw [ha] at hap
          exact ⟨cardsLE_trans hp1.1 hap.1, le_trans hap.2 hp1.2.1⟩
      | contra c' =>
          rw [ha] at hap
          exact cardsLE_trans hp1.1 hap
      | panic => exact trivial
  | contra c' =>
      have hp1 := phase1_le (totals c)
        ((List.finRange n).filter (fun s => 0 < totals c s)) c
      simp only [hp] at hp1
      dsimp only
      exact hp1.1
  | panic => exact trivial

/-! ### Termination and monotonicity of the fixpoint loop -/

/-- The `while any_changes` loop always reaches a verdict within
`mu c` passes: each changed pass strictly shrinks the measure. -/
theorem shakeDownLoop_isSome :
    ∀ (f : ℕ) (c : Cards n), mu c < f → (shakeDownLoop f c).isSome := by
  intro f
  induction f with
  | zero => intro c hc; omega
  | succ f ih =>
      intro c hc
      have hit := iteration_le c
      cases hi : iteration c with
      | changed c' =>
          rw [hi] at hit
          have hlt : mu c' < mu c := hit.2
          simp only [shakeDownLoop, hi]
          exact ih c' (by omega)
      | done c' => simp [shakeDownLoop, hi]
      | contra c' => simp [shakeDownLoop, hi]
      | panic => simp [shakeDownLoop, hi]

/-- Any verdict of the loop relates the input to the output state by
the knowledge order. -/
theorem shakeDownLoop_cardsLE :
    ∀ (f : ℕ) (c c' : Cards n),
    shakeDownLoop f c = some (.consistent c') ∨
      shakeDownLoop f c = some (.contradiction c') → CardsLE c c' := by
  intro f
  induction f with
  | zero => intro c c' h; rcases h with h | h <;> simp [shakeDownLoop] at h
  | succ f ih =>
      intro c c' h
      have hit := iteration_le c
      cases hi : iteration c with
      | changed c1 =>
          rw [hi] at hit
          simp only [shakeDownLoop, hi] at h
          exact cardsLE_trans hit.1 (ih c1 c' h)
      | done c1 =>
          rw [hi] at hit
          simp only [shakeDownLoop, hi] at h
          rcases h with h | h
          · obtain rfl : c1 = c' := by injection h with h1; injection h1
            exact hit.1
          · exfalso; injection h with h1; injection h1
      | contra c1 =>
          rw [hi] at hit
          simp only [shakeDownLoop, hi] at h
          rcases h with h | h
          · exfalso; injection h with h1; injection h1
          · obtain rfl : c1 = c' := by injection h with h1; injection h1
            exact hit
      | panic =>
          simp only [shakeDownLoop, hi] at h
          rcases h with h | h <;> (exfalso; injection h with h1; injection h1)

/-- `shakeDown` is the loop run with sufficient fuel. -/
theorem shakeDown_eq_loop (c : Cards n) :
    shakeDownLoop (mu c + 1) c = some (shakeDown c) := by
  have h := shakeDownLoop_isSome (mu c + 1) c (by omega)
  unfold shakeDown
  obtain ⟨r, hr⟩ := Option.isSome_iff_exists.mp h
  rw [hr]
  rfl

theorem shakeDown_cardsLE {c c' : Cards n}
    (h : shakeDown c = .consistent c' ∨ shakeDown c = .contradiction c') :
    CardsLE c c' := by
  apply shakeDownLoop_cardsLE (mu c + 1) c c'
  have he := shakeDown_eq_loop c
  rcases h with h | h
  · exact Or.inl (by rw [he, h])
  · exact Or.inr (by rw [he, h])

/-! ## The solver frame (`src/player.rs`) -/

/-- The canonical (rotated) encoding of a player index relative to
`this`: `(n + other - this) % n` of `CleverPlayer::_evaluate_move`. -/
def canonOther (N other this : ℕ) : ℕ := (N + other - this) % N

/-- The canonical encoding of a result: negative results (draw /
out-of-depth) pass through, winners are rotated relative to `this`
(`CleverPlayer::_evaluate_move`, miss branch). -/
def canonResult (N this : ℕ) (result : ℤ) : ℤ :=
  if result < 0 then result else (((N + result.toNat - this) % N : ℕ) : ℤ)

/-- The cache update of one `_evaluate_move` frame, with the recursive
`_evaluate_move_uncached` call abstracted as the inputs `other`,
`suit`, `result`, `draw`.  On a hit the cache is unchanged; on a miss
the canonicalised triple is inserted exactly when the result is a
decisive win or the draw position is not in the history.  `none`
models the `found.unwrap()` panic when the suit is not in the
permutation. -/
def evalMoveCacheAfter (cache : ℤ → Option (ℕ × ℕ × ℤ)) (pos : ℤ)
    (history : Finset ℤ) (N this : ℕ) (permutation : List ℤ)
    (other : ℕ) (suit result draw : ℤ) : Option (ℤ → Option (ℕ × ℕ × ℤ)) :=
  match cache pos with
  | some _ => some cache
  | none =>
      match permutation.findIdx? (fun x => x == suit) with
      | none => none
      | some suitC =>
          some (if 0 ≤ canonResult N this result ∨ draw ∉ history then
                  fun q => if q = pos
                    then some (canonOther N other this, suitC, canonResult N this result)
                    else cache q
                else cache)

/-- The value computed for `yes_preference` / `no_preference` in
`CleverPlayer::_evaluate_has_card`: the element `p[f]` at the found
position (not the position itself), else the list length. -/
def prefValue (p : List ℕ) (w : ℤ) : ℤ :=
  match p.findIdx? (fun x => (x : ℤ) == w) with
  | some f => ((p.getD f 0 : ℕ) : ℤ)
  | none => (p.length : ℤ)

/-- The index of `w` in the preference list, else the list length —
the quantity the specification calls the preference index. -/
def prefIndex (p : List ℕ) (w : ℤ) : ℤ :=
  match p.findIdx? (fun x => (x : ℤ) == w) with
  | some f => (f : ℤ)
  | none => (p.length : ℤ)

/-- The tail of `CleverPlayer::_evaluate_has_card` (source lines
331–357): once both branch winners are known, a negative `yes_winner`
returns true, a negative `no_winner` returns false, and with
preferences defined the branch with the smaller `prefValue` wins;
everything else returns false. -/
def evalHasCardTail (definedPrefs : Bool) (p : List ℕ) (yesW noW : ℤ) : Bool :=
  if yesW < 0 then true
  else if noW < 0 then false
  else if definedPrefs then
    if prefValue p yesW < prefValue p noW then true
    else if prefValue p noW < prefValue p yesW then false
    else false
  else false

/-! ## Concrete states used by the claims -/

/-- Two-player state whose hand 0 has voided all suits but one:
`force_unknowns` fires and clears the voids. -/
def clearEx : Cards 2 := fun i =>
  if i = 0 then ⟨fun _ => 0, {0}, 1⟩
  else ⟨fun s => if s = 0 then 4 else 2, ∅, 1⟩

/-- The result of `shake_down` on `clearEx`. -/
def clearExAfter : Cards 2 := fun i =>
  if i = 0 then ⟨fun s => if s = 0 then 0 else 1, ∅, 0⟩
  else ⟨fun s => if s = 0 then 4 else 3, ∅, 0⟩

/-- Four-player state on which the sparse-suit rule (which never sets
`any_changes`) fires in the final pass of `shake_down`. -/
def sparseEx : Cards 4 := fun i =>
  if i = 0 then ⟨fun _ => 0, ∅, 2⟩
  else if i = 1 then ⟨fun _ => 0, {0}, 1⟩
  else if i = 2 then ⟨fun _ => 0, {1}, 2⟩
  else ⟨fun s => if s = 0 then 2 else if s = 1 then 2 else 3, ∅, 0⟩

/-- The state `shake_down` returns on `sparseEx`: hand 0 has been
given one card of suit 1 by the sparse-suit rule, but the inference
was never propagated. -/
def sparseExMid : Cards 4 := fun i =>
  if i = 0 then ⟨fun s => if s = 1 then 1 else 0, ∅, 1⟩
  else if i = 1 then ⟨fun _ => 0, {0}, 1⟩
  else if i = 2 then ⟨fun _ => 0, {1}, 2⟩
  else ⟨fun s => if s = 0 then 2 else if s = 1 then 2 else 3, ∅, 0⟩

/-- A fully determined one-player table: the loop body reports no
change on it. -/
def doneEx : Cards 1 := fun _ => ⟨fun _ => 4, ∅, 0⟩

/-- Two-player state for the `transfer` error path: the asker holds
four unknowns, the asked player is void in suit 0. -/
def atomEx : Cards 2 := fun i =>
  if i = 0 then ⟨fun _ => 0, ∅, 4⟩ else ⟨fun _ => 0, {0}, 4⟩

/-- The state left behind by the failing `transfer` on `atomEx`: the
asker's `ensure_have` promotion has already happened. -/
def atomExMid : Cards 2 := fun i =>
  if i = 0 then ⟨fun s => if s = 0 then 1 else 0, ∅, 3⟩
  else ⟨fun _ => 0, {0}, 4⟩

/-- A hand with four unknowns and a recorded void of suit 0. -/
def voidHand : Hand 1 := ⟨fun _ => 0, {0}, 4⟩

/-! ## Claims -/

/-- C3 (counterexample): `fill_some_unknowns(0, 1)` on a hand with
four unknowns and a recorded void of suit 0 panics on the
`assert!(!voids.contains(suit))` — it does not report failure by
returning false, contrary to the claim. -/
theorem fillSome_void_panics :
    Hand.fillSome voidHand 0 1 = HOut.panic ∧
      Hand.fillSome voidHand 0 1 ≠ HOut.fail := by
  constructor
  · decide
  · decide

/-- C3 (amended): `fill_some_unknowns(s, k)` panics when `4 < k`;
otherwise it returns false exactly when the hand's unknown count is
less than `k`; when `k` unknowns are available it panics on a voided
suit and otherwise moves `k` unknowns into `known[s]` and succeeds. -/
theorem fillSome_cases (n : ℕ) (h : Hand n) (s : Fin n) (k : ℕ) :
    (4 < k → Hand.fillSome h s k = HOut.panic) ∧
    (k ≤ 4 → h.unknown < k → Hand.fillSome h s k = HOut.fail) ∧
    (k ≤ 4 → k ≤ h.unknown → s ∈ h.voids → Hand.fillSome h s k = HOut.panic) ∧
    (k ≤ 4 → k ≤ h.unknown → s ∉ h.voids →
      Hand.fillSome h s k =
        HOut.ok ⟨upd h.known s (h.known s + k), h.voids, h.unknown - k⟩) := by
  unfold Hand.fillSome
  refine ⟨fun h4 => ?_, fun h4 hu => ?_, fun h4 hu hv => ?_, fun h4 hu hv => ?_⟩
  · rw [if_pos h4]
  · rw [if_neg (by omega), if_pos hu]
  · rw [if_neg (by omega), if_neg (by omega), if_pos hv]
  · rw [if_neg (by omega), if_neg (by omega), if_neg hv]

theorem fillSome_cases_witness :
    Hand.fillSome (⟨fun _ => 0, ∅, 3⟩ : Hand 1) 0 2 =
      HOut.ok ⟨upd (fun _ => 0) 0 (0 + 2), ∅, 3 - 2⟩ :=
  (fillSome_cases 1 ⟨fun _ => 0, ∅, 3⟩ 0 2).2.2.2 (by omega) (by decide) (by decide)

/-- C4 (counterexample): on `clearEx` a successful `shake_down` call
clears hand 0's voids set (its `force_unknowns` fires), so the voids
set does not only grow. -/
theorem shakeDown_voids_not_monotone :
    shakeDown clearEx = SDR.consistent clearExAfter ∧
      (0 : Fin 2) ∈ (clearEx 0).voids ∧ (0 : Fin 2) ∉ (clearExAfter 0).voids := by
  refine ⟨by decide, by decide, by decide⟩

/-- C4 (amended): over a single `shake_down` call — successful or
contradiction-reporting — every hand's known counts only increase and
its unknown count only decreases; its voids set only grows unless the
hand became fully determined during the call, in which case the voids
may have been cleared. -/
theorem shakeDown_monotone (n : ℕ) (c c' : Cards n)
    (h : shakeDown c = SDR.consistent c' ∨ shakeDown c = SDR.contradiction c')
    (i : Fin n) :
    (∀ s, (c i).known s ≤ (c' i).known s) ∧ (c' i).unknown ≤ (c i).unknown ∧
      ((c i).voids ⊆ (c' i).voids ∨ (c' i).unknown = 0) :=
  shakeDown_cardsLE h i

theorem shakeDown_monotone_witness :
    (∀ s, (clearEx 0).known s ≤ (clearExAfter 0).known s) ∧
      (clearExAfter 0).unknown ≤ (clearEx 0).unknown ∧
      ((clearEx 0).voids ⊆ (clearExAfter 0).voids ∨ (clearExAfter 0).unknown = 0) :=
  shakeDown_monotone 2 clearEx clearExAfter (Or.inl (by decide)) 0

/-- C5: on a cache miss (`cache pos = none`), the `_evaluate_move`
frame inserts the canonicalised triple `(other_c, suit_c, result_c)`
at `pos` exactly when `result_c` is non-negative or the uncached
evaluation's draw position is not in the history; other keys are
untouched. -/
theorem evalMove_cache_insert_iff (cache : ℤ → Option (ℕ × ℕ × ℤ)) (pos : ℤ)
    (history : Finset ℤ) (N this : ℕ) (permutation : List ℤ)
    (other : ℕ) (suit result draw : ℤ) (suitC : ℕ)
    (hmiss : cache pos = none)
    (hsuit : permutation.findIdx? (fun x => x == suit) = some suitC) :
    ∃ nc, evalMoveCacheAfter cache pos history N this permutation
        other suit result draw = some nc ∧
      ((nc pos).isSome ↔ 0 ≤ canonResult N this result ∨ draw ∉ history) ∧
      (∀ _ : 0 ≤ canonResult N this result ∨ draw ∉ history,
        nc pos = some (canonOther N other this, suitC, canonResult N this result)) ∧
      (∀ q, q ≠ pos → nc q = cache q) := by
  unfold evalMoveCacheAfter
  rw [hmiss, hsuit]
  by_cases hc : 0 ≤ canonResult N this result ∨ draw ∉ history
  · refine ⟨_, rfl, ?_, ?_, ?_⟩
    · rw [if_pos hc]
      simp [hc]
    · intro hins
      rw [if_pos hc]
      simp
    · intro q hq
      rw [if_pos hc]
      simp [hq]
  · refine ⟨_, rfl, ?_, ?_, ?_⟩
    · rw [if_neg hc]
      simp [hmiss, hc]
    · intro hins; exact absurd hins hc
    · intro q hq
      rw [if_neg hc]

theorem evalMove_cache_insert_iff_witness :
    ∃ nc, evalMoveCacheAfter (fun _ => none) 0 ∅ 2 0 [1, 0] 1 0 (-1) 5 = some nc ∧
      ((nc 0).isSome ↔ 0 ≤ canonResult 2 0 (-1) ∨ (5 : ℤ) ∉ (∅ : Finset ℤ)) ∧
      (∀ _ : 0 ≤ canonResult 2 0 (-1) ∨ (5 : ℤ) ∉ (∅ : Finset ℤ),
        nc 0 = some (canonOther 2 1 0, 1, canonResult 2 0 (-1))) ∧
      (∀ q, q ≠ 0 → nc q = (fun _ => none : ℤ → Option (ℕ × ℕ × ℤ)) q) :=
  evalMove_cache_insert_iff (fun _ => none) 0 ∅ 2 0 [1, 0] 1 0 (-1) 5 1
    rfl (by decide)

/-- C6: with preferences `[2, 1]`, `yes_winner = 1` and
`no_winner = 2`, the code returns true because it compares the stored
values `p[f]` (the winners' player numbers), while the
specification's preference indices compare the other way (index of 1
is 1, index of 2 is 0), demanding false. -/
theorem evalHasCard_pref_value_bug :
    evalHasCardTail true [2, 1] 1 2 = true ∧
      prefIndex [2, 1] 1 = 1 ∧ prefIndex [2, 1] 2 = 0 ∧
      decide (prefIndex [2, 1] 1 < prefIndex [2, 1] 2) = false ∧
      prefValue [2, 1] 1 = 1 ∧ prefValue [2, 1] 2 = 2 := by
  refine ⟨by decide, by decide, by decide, by decide, by decide, by decide⟩

/-- C7: for every table the `shake_down` loop reaches a verdict
within `mu c + 1` passes (the fixpoint is reached after finitely many
iterations), and whenever a pass reports no change and no
contradiction the loop returns true with that state. -/
theorem shakeDown_terminates (n : ℕ) (c : Cards n) :
    (shakeDownLoop (mu c + 1) c).isSome ∧
      (∀ c', iteration c = IterOut.done c' →
        shakeDownLoop (mu c + 1) c = some (SDR.consistent c')) := by
  refine ⟨shakeDownLoop_isSome (mu c + 1) c (by omega), fun c' hd => ?_⟩
  simp [shakeDownLoop, hd]

theorem shakeDown_terminates_witness :
    (shakeDownLoop (mu doneEx + 1) doneEx).isSome ∧
      shakeDownLoop (mu doneEx + 1) doneEx = some (SDR.consistent doneEx) :=
  ⟨(shakeDown_terminates 1 doneEx).1,
   (shakeDown_terminates 1 doneEx).2 doneEx (by decide)⟩

/-- C8: `shake_down` is not idempotent.  On `sparseEx` the first call
succeeds and returns `sparseExMid` (the sparse-suit rule filled a
card without setting `any_changes`), and a second call on
`sparseExMid` changes the state again instead of returning it
unchanged. -/
theorem shakeDown_not_idempotent :
    shakeDown sparseEx = SDR.consistent sparseExMid ∧
      shakeDown sparseExMid ≠ SDR.consistent sparseExMid := by
  refine ⟨by decide, by decide⟩

/-- C10: the error path of `transfer` is not atomic.  On `atomEx`,
`transfer(0, other = 1, this = 0)` with `no_throw` returns false
(player 1 is void in suit 0 so `remove` fails), yet hand 0 has
already promoted an unknown into `known[0]` and is not restored. -/
theorem transfer_error_not_atomic :
    transfer atomEx 0 1 0 = TOut.fail atomExMid ∧
      (atomEx 0).known 0 = 0 ∧ (atomExMid 0).known 0 = 1 ∧
      (atomEx 0).unknown = 4 ∧ (atomExMid 0).unknown = 3 := by
  refine ⟨by decide, by decide, by decide, by decide, by decide⟩

/-! ## Reachability and the known/voids disjointness invariant -/

/-- For every hand of the table, the suits recorded in `known_cards`
and the suits in `known_voids` are disjoint. -/
def DisjointKV (c : Cards n) : Prop :=
  ∀ i s, s ∈ (c i).voids → (c i).known s = 0

/-- States reachable from the initial table by `transfer` and
`no_transfer` calls alone (successful or failed — a failed call keeps
its partial mutation). -/
inductive ReachTN (n : ℕ) : Cards n → Prop
  | init : ReachTN n (initCards n)
  | transferOk {c c' : Cards n} {s o t : Fin n} :
      ReachTN n c → transfer c s o t = TOut.ok c' → ReachTN n c'
  | transferFail {c c' : Cards n} {s o t : Fin n} :
      ReachTN n c → transfer c s o t = TOut.fail c' → ReachTN n c'
  | noTransferOk {c c' : Cards n} {s o t : Fin n} :
      ReachTN n c → noTransfer c s o t = TOut.ok c' → ReachTN n c'
  | noTransferFail {c c' : Cards n} {s o t : Fin n} :
      ReachTN n c → noTransfer c s o t = TOut.fail c' → ReachTN n c'

/-- States reachable from the initial table by `transfer`,
`no_transfer` and `shake_down` calls. -/
inductive Reach (n : ℕ) : Cards n → Prop
  | init : Reach n (initCards n)
  | transferOk {c c' : Cards n} {s o t : Fin n} :
      Reach n c → transfer c s o t = TOut.ok c' → Reach n c'
  | transferFail {c c' : Cards n} {s o t : Fin n} :
      Reach n c → transfer c s o t = TOut.fail c' → Reach n c'
  | noTransferOk {c c' : Cards n} {s o t : Fin n} :
      Reach n c → noTransfer c s o t = TOut.ok c' → Reach n c'
  | noTransferFail {c c' : Cards n} {s o t : Fin n} :
      Reach n c → noTransfer c s o t = TOut.fail c' → Reach n c'
  | shakeConsistent {c c' : Cards n} :
      Reach n c → shakeDown c = SDR.consistent c' → Reach n c'
  | shakeContradiction {c c' : Cards n} :
      Reach n c → shakeDown c = SDR.contradiction c' → Reach n c'

theorem disjoint_upd {c : Cards n} {i : Fin n} {h : Hand n}
    (inv : DisjointKV c) (hh : ∀ t ∈ h.voids, h.known t = 0) :
    DisjointKV (upd c i h) := by
  intro j u hu
  by_cases hj : j = i
  · subst hj
    rw [upd_same] at hu ⊢
    exact hh u hu
  · rw [upd_noteq hj _ _] at hu ⊢
    exact inv j u hu

theorem ensureHave_disj {h h' : Hand n} {s : Fin n}
    (inv : ∀ t ∈ h.voids, h.known t = 0)
    (e : Hand.ensureHave h s = HOut.ok h') :
    (∀ t ∈ h'.voids, h'.known t = 0) ∧ h'.voids ⊆ h.voids ∧ s ∉ h'.voids := by
  unfold Hand.ensureHave at e
  by_cases hk : h.known s = 0
  · rw [if_neg (not_not_intro hk)] at e
    by_cases hv : s ∈ h.voids
    · rw [if_pos hv] at e
      cases e
    · rw [if_neg hv] at e
      by_cases hu : h.unknown = 0
      · simp [Hand.removeUnknown, hu] at e
      · simp only [Hand.removeUnknown, if_neg hu] at e
        cases e
        refine ⟨?_, ?_, ?_⟩
        · intro t ht
          simp only at ht ⊢
          have htv : t ∈ h.voids := by
            by_cases hz : h.unknown - 1 = 0
            · rw [if_pos hz] at ht
              exact absurd ht (Finset.not_mem_empty t)
            · rwa [if_neg hz] at ht
          have hts : t ≠ s := fun hts => hv (hts ▸ htv)
          rw [upd_noteq hts _ _]
          exact inv t htv
        · intro t ht
          simp only at ht
          by_cases hz : h.unknown - 1 = 0
          · rw [if_pos hz] at ht
            exact absurd ht (Finset.not_mem_empty t)
          · rwa [if_neg hz] at ht
        · intro hs
          simp only at hs
          by_cases hz : h.unknown - 1 = 0
          · rw [if_pos hz] at hs
            exact absurd hs (Finset.not_mem_empty s)
          · rw [if_neg hz] at hs
            exact hv hs
  · rw [if_pos hk] at e
    cases e
    exact ⟨inv, Finset.Subset.refl _, fun hs => hk (inv s hs)⟩

theorem ensureHaveNot_disj {h h' : Hand n} {s : Fin n}
    (inv : ∀ t ∈ h.voids, h.known t = 0)
    (e : Hand.ensureHaveNot h s = HOut.ok h') :
    ∀ t ∈ h'.voids, h'.known t = 0 := by
  unfold Hand.ensureHaveNot at e
  by_cases hk : h.known s = 0
  · rw [if_neg (not_not_intro hk)] at e
    cases e
    intro t ht
    simp only at ht ⊢
    rcases Finset.mem_insert.mp ht with rfl | ht
    · exact hk
    · exact inv t ht
  · rw [if_pos hk] at e
    cases e

theorem removeCard_disj {h h' : Hand n} {s : Fin n}
    (inv : ∀ t ∈ h.voids, h.known t = 0)
    (e : Hand.removeCard h s = HOut.ok h') :
    (∀ t ∈ h'.voids, h'.known t = 0) ∧ h'.voids ⊆ h.voids := by
  unfold Hand.removeCard at e
  by_cases hk : h.known s = 0
  · rw [if_neg (not_not_intro hk)] at e
    by_cases hv : s ∈ h.voids
    · rw [if_pos hv] at e
      cases e
    · rw [if_neg hv] at e
      by_cases hu : h.unknown = 0
      · simp [Hand.removeUnknown, hu] at e
      · simp only [Hand.removeUnknown, if_neg hu] at e
        cases e
        constructor
        · intro t ht
          simp only at ht ⊢
          have htv : t ∈ h.voids := by
            by_cases hz : h.unknown - 1 = 0
            · rw [if_pos hz] at ht
              exact absurd ht (Finset.not_mem_empty t)
            · rwa [if_neg hz] at ht
          exact inv t htv
        · intro t ht
          simp only at ht
          by_cases hz : h.unknown - 1 = 0
          · rw [if_pos hz] at ht
            exact absurd ht (Finset.not_mem_empty t)
          · rwa [if_neg hz] at ht
  · rw [if_pos hk] at e
    cases e
    constructor
    · intro t ht
      simp only at ht ⊢
      have hts : t ≠ s := fun hts => hk (inv t (hts ▸ ht) ▸ (hts ▸ rfl))
      rw [upd_noteq hts _ _]
      exact inv t ht
    · exact Finset.Subset.refl _

theorem addCard_disj {h : Hand n} {s : Fin n}
    (inv : ∀ t ∈ h.voids, h.known t = 0) (hs : s ∉ h.voids) :
    ∀ t ∈ (Hand.addCard h s).voids, (Hand.addCard h s).known t = 0 := by
  intro t ht
  unfold Hand.addCard at ht ⊢
  simp only at ht ⊢
  have hts : t ≠ s := fun hts => hs (hts ▸ ht)
  rw [upd_noteq hts _ _]
  exact inv t ht

theorem transfer_disj {c c' : Cards n} {s o t : Fin n}
    (inv : DisjointKV c)
    (e : transfer c s o t = TOut.ok c' ∨ transfer c s o t = TOut.fail c') :
    DisjointKV c' := by
  unfold transfer at e
  cases he : Hand.ensureHave (c t) s with
  | panic =>
      simp only [he] at e
      rcases e with e | e <;> cases e
  | fail =>
      simp only [he] at e
      rcases e with e | e
      · cases e
      · cases e
        exact inv
  | ok h =>
      simp only [he] at e
      have hh := ensureHave_disj (inv t) he
      have hc1 : DisjointKV (upd c t h) := disjoint_upd inv hh.1
      cases hr : Hand.removeCard (upd c t h o) s with
      | panic =>
          simp only [hr] at e
          rcases e with e | e <;> cases e
      | fail =>
          simp only [hr] at e
          rcases e with e | e
          · cases e
          · cases e
            exact hc1
      | ok g =>
          simp only [hr] at e
          have hg := removeCard_disj (hc1 o) hr
          have hc2 : DisjointKV (upd (upd c t h) o g) := disjoint_upd hc1 hg.1
          have hsv : s ∉ ((upd (upd c t h) o g) t).voids := by
            by_cases hto : t = o
            · subst hto
              rw [upd_same]
              intro hmem
              have : s ∈ (upd c t h t).voids := hg.2 hmem
              rw [upd_same] at this
              exact hh.2.2 this
            · rw [upd_noteq hto _ _, upd_same]
              exact hh.2.2
          rcases e with e | e
          · cases e
            exact disjoint_upd hc2 (addCard_disj (hc2 t) hsv)
          · cases e
  
theorem noTransfer_disj {c c' : Cards n} {s o t : Fin n}
    (inv : DisjointKV c)
    (e : noTransfer c s o t = TOut.ok c' ∨ noTransfer c s o t = TOut.fail c') :
    DisjointKV c' := by
  unfold noTransfer at e
  cases he : Hand.ensureHave (c t) s with
  | panic =>
      simp only [he] at e
      rcases e with e | e <;> cases e
  | fail =>
      simp only [he] at e
      rcases e with e | e
      · cases e
      · cases e
        exact inv
  | ok h =>
      simp only [he] at e
      have hh := ensureHave_disj (inv t) he
      have hc1 : DisjointKV (upd c t h) := disjoint_upd inv hh.1
      cases hr : Hand.ensureHaveNot (upd c t h o) s with
      | panic =>
          simp only [hr] at e
          rcases e with e | e <;> cases e
      | fail =>
          simp only [hr] at e
          rcases e with e | e
          · cases e
          · cases e
            exact hc1
      | ok g =>
          simp only [hr] at e
          have hg := ensureHaveNot_disj (hc1 o) hr
          rcases e with e | e
          · cases e
            exact disjoint_upd hc1 hg
          · cases e

/-- State after `transfer(0, other = 2, this = 1)` from the initial
three-player table. -/
def reachA : Cards 3 := fun i =>
  if i = 1 then ⟨fun s => if s = 0 then 2 else 0, ∅, 3⟩
  else if i = 2 then ⟨fun _ => 0, ∅, 3⟩
  else ⟨fun _ => 0, ∅, 4⟩

/-- State after a second `transfer(0, other = 2, this = 1)`. -/
def reachB : Cards 3 := fun i =>
  if i = 1 then ⟨fun s => if s = 0 then 3 else 0, ∅, 3⟩
  else if i = 2 then ⟨fun _ => 0, ∅, 2⟩
  else ⟨fun _ => 0, ∅, 4⟩

/-- State after `no_transfer(0, other = 2, this = 0)`: player 0
promoted an unknown to a known 0, player 2 recorded a void of 0.  The
total of suit 0 is now four. -/
def reachC : Cards 3 := fun i =>
  if i = 1 then ⟨fun s => if s = 0 then 3 else 0, ∅, 3⟩
  else if i = 2 then ⟨fun _ => 0, {0}, 2⟩
  else ⟨fun s => if s = 0 then 1 else 0, ∅, 3⟩

/-- State returned by `shake_down` on `reachC`: `kill_unknown` has
inserted suit 0 into the voids of hands 0 and 1 even though both
still hold known cards of suit 0. -/
def reachBad : Cards 3 := fun i =>
  if i = 1 then ⟨fun s => if s = 0 then 3 else 0, {0}, 3⟩
  else if i = 2 then ⟨fun _ => 0, {0}, 2⟩
  else ⟨fun s => if s = 0 then 1 else 0, {0}, 3⟩

/-- C2 (counterexample): a state reachable by two transfers, one
denial and one successful `shake_down` in which hand 0 records suit 0
both in `known_cards` (count 1) and in `known_voids`:
`kill_unknown` inserts the void without checking the known cards. -/
theorem reachable_known_void_overlap :
    Reach 3 reachBad ∧ (0 : Fin 3) ∈ (reachBad 0).voids ∧
      (reachBad 0).known 0 ≠ 0 := by
  refine ⟨?_, by decide, by decide⟩
  have h1 : transfer (initCards 3) 0 2 1 = TOut.ok reachA := by decide
  have h2 : transfer reachA 0 2 1 = TOut.ok reachB := by decide
  have h3 : noTransfer reachB 0 2 0 = TOut.ok reachC := by decide
  have h4 : shakeDown reachC = SDR.consistent reachBad := by decide
  exact Reach.shakeConsistent
    (Reach.noTransferOk (Reach.transferOk (Reach.transferOk Reach.init h1) h2) h3) h4

/-- C2 (amended): in every state reachable by `transfer` and
`no_transfer` alone (without `shake_down`), every hand's known suits
and voids are disjoint.  (`shake_down`'s saturation rule can break
the disjointness, as the counterexample shows.) -/
theorem reachTN_disjoint (n : ℕ) (c : Cards n) (h : ReachTN n c) :
    DisjointKV c := by
  induction h with
  | init => exact fun i s hs => absurd hs (Finset.not_mem_empty s)
  | transferOk hr he ih => exact transfer_disj ih (Or.inl he)
  | transferFail hr he ih => exact transfer_disj ih (Or.inr he)
  | noTransferOk hr he ih => exact noTransfer_disj ih (Or.inl he)
  | noTransferFail hr he ih => exact noTransfer_disj ih (Or.inr he)

theorem reachTN_disjoint_witness : DisjointKV (initCards 2) :=
  reachTN_disjoint 2 (initCards 2) ReachTN.init

/-! ## The `no_transfer` scenario (C9) -/

/-- Predicate for a successful `shake_down` verdict. -/
def SDR.isConsistent {n : ℕ} : SDR n → Bool
  | .consistent _ => true
  | _ => false

/-- The initial state exactly as the claim words it: hand 2 carries a
recorded void of suit 0 (reading the `x0` of `111???x0` as part of
the state). -/
def scenario1Claim : Cards 3 := fun i =>
  if i = 0 then ⟨fun s => if s = 0 then 3 else 0, ∅, 0⟩
  else if i = 1 then ⟨fun s => if s = 2 then 2 else 0, ∅, 1⟩
  else ⟨fun s => if s = 1 then 3 else 0, {0}, 3⟩

/-- `scenario1Claim` after `no_transfer(suit = 1, from = 0, to = 1)`. -/
def scenario1ClaimMid : Cards 3 := fun i =>
  if i = 0 then ⟨fun s => if s = 0 then 3 else 0, {1}, 0⟩
  else if i = 1 then ⟨fun s => if s = 1 then 1 else if s = 2 then 2 else 0, ∅, 0⟩
  else ⟨fun s => if s = 1 then 3 else 0, {0}, 3⟩

/-- The initial state as the repository's test actually builds it:
hand 2 has no recorded voids. -/
def scenario1Test : Cards 3 := fun i =>
  if i = 0 then ⟨fun s => if s = 0 then 3 else 0, ∅, 0⟩
  else if i = 1 then ⟨fun s => if s = 2 then 2 else 0, ∅, 1⟩
  else ⟨fun s => if s = 1 then 3 else 0, ∅, 3⟩

/-- `scenario1Test` after `no_transfer(suit = 1, from = 0, to = 1)`. -/
def scenario1TestMid : Cards 3 := fun i =>
  if i = 0 then ⟨fun s => if s = 0 then 3 else 0, {1}, 0⟩
  else if i = 1 then ⟨fun s => if s = 1 then 1 else if s = 2 then 2 else 0, ∅, 0⟩
  else ⟨fun s => if s = 1 then 3 else 0, ∅, 3⟩

/-- `scenario1Test` after `no_transfer` and `shake_down`: the hands
the claim lists. -/
def scenario1Final : Cards 3 := fun i =>
  if i = 0 then ⟨fun s => if s = 0 then 3 else 0, {1}, 0⟩
  else if i = 1 then ⟨fun s => if s = 1 then 1 else if s = 2 then 2 else 0, ∅, 0⟩
  else ⟨fun s => if s = 0 then 1 else if s = 1 then 3 else 2, ∅, 0⟩

/-- C9 (counterexample): starting from the state exactly as the claim
words it — with hand 2 void in suit 0 — `shake_down` after the denial
reports a logical contradiction (only three cards of suit 0 can be
placed), so the claimed final hands are not produced. -/
theorem scenario1_claim_state_contradicts :
    noTransfer scenario1Claim 1 0 1 = TOut.ok scenario1ClaimMid ∧
      (shakeDown scenario1ClaimMid).isConsistent = false := by
  refine ⟨by decide, by decide⟩

/-- C9 (amended): from the scenario's actual initial state — hand 2
has no recorded void (the `x0` of the display is not part of the
constructed test state) — `no_transfer(1, from = 0, to = 1)` followed
by `shake_down` succeeds and yields hand 0 = `{0:3}`,
hand 1 = `{2:2, 1:1}`, hand 2 = `{1:3, 0:1, 2:2}`. -/
theorem scenario1_fixed_state_result :
    noTransfer scenario1Test 1 0 1 = TOut.ok scenario1TestMid ∧
      shakeDown scenario1TestMid = SDR.consistent scenario1Final ∧
      (scenario1Final 0).known = (fun s => if s = 0 then 3 else 0) ∧
      (scenario1Final 1).known = (fun s => if s = 1 then 1 else if s = 2 then 2 else 0) ∧
      (scenario1Final 2).known = (fun s => if s = 0 then 1 else if s = 1 then 3 else 2) := by
  refine ⟨by decide, by decide, by decide, by decide, by decide⟩

/-! ## `test_winner` (C1) -/

/-- Characterisation of a left-to-right scan over `List.range N`:
`find?` returns the least index satisfying the predicate. -/
theorem find?_range_spec (p : ℕ → Bool) :
    ∀ N : ℕ,
    (∀ k, (List.range N).find? p = some k →
      k < N ∧ p k = true ∧ ∀ j < k, p j = false) ∧
    ((List.range N).find? p = none → ∀ j < N, p j = false) := by
  intro N
  induction N with
  | zero =>
      constructor
      · intro k hk
        simp [List.range_zero] at hk
      · intro _ j hj
        omega
  | succ N ih =>
      rw [List.range_succ]
      constructor
      · intro k hk
        rw [List.find?_append] at hk
        cases hf : (List.range N).find? p with
        | some m =>
            rw [hf, Option.or_some] at hk
            injection hk with hk
            subst hk
            obtain ⟨h1, h2, h3⟩ := (ih.1) m hf
            exact ⟨by omega, h2, h3⟩
        | none =>
            rw [hf, Option.none_or, List.find?_singleton] at hk
            by_cases hp : p N = true
            · rw [if_pos hp] at hk
              injection hk with hk
              subst hk
              exact ⟨by omega, hp, fun j hj => ih.2 hf j hj⟩
            · rw [if_neg hp] at hk
              cases hk
      · intro hk
        rw [List.find?_append] at hk
        cases hf : (List.range N).find? p with
        | some m => rw [hf, Option.or_some] at hk; cases hk
        | none =>
            rw [hf, Option.none_or, List.find?_singleton] at hk
            intro j hj
            by_cases hjN : j < N
            · exact ih.2 hf j hjN
            · have hjeq : j = N := by omega
              subst hjeq
              by_cases hp : p j = true
              · rw [if_pos hp] at hk
                cases hk
              · simpa using hp

/-- `test_winner` as the claim words it: `ILLEGAL` exactly on a
`shake_down` contradiction; `last_player` when every hand is
determined; otherwise the first player in rotation order from
`last_player` — the least number of rotation steps, by `Nat.find` —
whose hand holds four cards of one suit; `NO_WINNER` when no player
does. -/
def testWinnerSpec (c : Cards n) (last : Fin n) : Option ℤ :=
  match shakeDown c with
  | .panicked => none
  | .contradiction _ => some (-2)
  | .consistent c' =>
      if ∀ i, (c' i).unknown = 0 then some ((last : ℕ) : ℤ)
      else if hw : ∃ k, k < n ∧ (∃ s, (c' (rot last k)).known s = 4) then
        some (((rot last (Nat.find hw) : Fin n) : ℕ) : ℤ)
      else some (-1)

/-- C1: `test_winner` agrees with the claim's description on every
table and every `last_player`: it returns `ILLEGAL` exactly when
`shake_down` reports a contradiction, `last_player` when every hand
is determined, otherwise the first four-of-a-kind holder in rotation
order, and `NO_WINNER` when there is none. -/
theorem testWinner_spec_correct (n : ℕ) (c : Cards n) (last : Fin n) :
    testWinner c last = testWinnerSpec c last := by
  unfold testWinner testWinnerSpec
  cases hsd : shakeDown c with
  | panicked => rfl
  | contradiction c' => rfl
  | consistent c' =>
      have hdet : ((List.finRange n).all (fun i => (c' i).isDetermined) = true) ↔
          (∀ i, (c' i).unknown = 0) := by
        simp [List.all_eq_true, Hand.isDetermined, List.mem_finRange, beq_iff_eq]
      dsimp only
      by_cases hall : ∀ i, (c' i).unknown = 0
      · rw [if_pos (hdet.mpr hall), if_pos hall]
      · rw [if_neg (fun hc => hall (hdet.mp hc)), if_neg hall]
        have hspec := find?_range_spec
          (fun i => (c' (rot last i)).hasFourOfAKind) n
        cases hf : (List.range n).find?
            (fun i => (c' (rot last i)).hasFourOfAKind) with
        | some k =>
            obtain ⟨hk1, hk2, hk3⟩ := hspec.1 k hf
            have hx : ∃ k, k < n ∧ (∃ s, (c' (rot last k)).known s = 4) :=
              ⟨k, hk1, of_decide_eq_true hk2⟩
            have hfind : Nat.find hx = k := by
              rw [Nat.find_eq_iff]
              exact ⟨⟨hk1, of_decide_eq_true hk2⟩,
                fun j hj hc => of_decide_eq_false (hk3 j hj) hc.2⟩
            rw [dif_pos hx, hfind]
        | none =>
            have hnx : ¬ ∃ k, k < n ∧ (∃ s, (c' (rot last k)).known s = 4) := by
              rintro ⟨k, hk, hs⟩
              exact of_decide_eq_false (hspec.2 hf k hk) hs
            rw [dif_neg hnx]

end QGF
